import Mathlib

/-!
Shallow embedding of `speedclone.py` (DiamondGotCat/SpeedClone), a tool that
bootstraps a local copy of a GitHub repository from codeload snapshot archives.

Modelling conventions:
* Python strings are `List Char` (`Str`); all string operations used by the
  source (`split`, `startswith`, `rstrip`, `in`, slicing) are defined
  recursively below, mirroring CPython semantics.
* `pathlib.Path` values are `RawPath`: an absolute flag plus components.
  The `Path` constructor drops empty and `"."` components and keeps `".."`,
  exactly as pathlib does; `mkRawPath` reproduces this.
* `Path.resolve(strict=False)` / `os.path.realpath` is modelled lexically
  (`resolveLex`): the model's filesystem never contains symbolic links
  (the extractor never creates any, see `_extract_tar_to` lines 83-84),
  so realpath's component walk reduces to lexical `..` elimination.
* The filesystem is `FS`: a list of (resolved, absolute) directory paths and a
  list of (resolved path, content) file entries, newest first; the root `[]`
  always exists.  Kernel-style path resolution (`walkDir`) requires every
  intermediate component to be an existing directory, distinguishing
  `ENOENT` from `ENOTDIR`, since `Path.mkdir(parents=True)` recursion in
  CPython reacts to `FileNotFoundError` only.
* Effectful functions return the (possibly partially mutated) state together
  with an optional error, matching in-place mutation plus exceptions.
* Network transfer is abstracted: the snapshot cascade takes one oracle per
  tier invocation, and the HTML scraper takes per-page match oracles.
* File permission bits (`os.chmod`, zip `external_attr` mode restore) are not
  tracked by `FS`; no claim under analysis mentions them.
-/

abbrev Str := List Char

/-- Python `str.split(sep)`: keeps empty chunks, `"".split(c) = [""]`. -/
def pySplit (sep : Char) : Str → List Str
  | [] => [[]]
  | c :: rest =>
    if c = sep then [] :: pySplit sep rest
    else
      match pySplit sep rest with
      | [] => [[c]]
      | r :: rs => (c :: r) :: rs

/-- Python `str.rstrip('/')`. -/
def rstripSlash (s : Str) : Str := (s.reverse.dropWhile (fun c => c == '/')).reverse

/-- Python `str.lower()` (ASCII is all the source needs). -/
def pyLower (s : Str) : Str := s.map Char.toLower

/-- Python substring containment `pat in s`. -/
def pyIn (pat : Str) : Str → Bool
  | [] => pat.isEmpty
  | c :: rest => pat.isPrefixOf (c :: rest) || pyIn pat rest

/-- A `pathlib.PurePosixPath`: absolute flag plus components.  The pathlib
constructor drops empty and `"."` segments and keeps `".."` segments. -/
structure RawPath where
  abs : Bool
  comps : List Str
deriving DecidableEq, Repr

/-- `pathlib.Path(s)` for a POSIX path string. -/
def mkRawPath (s : Str) : RawPath :=
  ⟨s.head? = some '/',
   (pySplit '/' s).filter (fun c => decide (c ≠ [] ∧ c ≠ ['.']))⟩

/-- pathlib `/` (`Path.__truediv__`): an absolute right operand replaces the
left operand entirely. -/
def joinPath (a b : RawPath) : RawPath :=
  if b.abs then b else ⟨a.abs, a.comps ++ b.comps⟩

/-- pathlib `Path.parent`: drop the last component. -/
def RawPath.parent (p : RawPath) : RawPath := ⟨p.abs, p.comps.dropLast⟩

/-- One step of lexical `..` elimination. -/
def normStep (acc : List Str) (c : Str) : List Str :=
  if c = ['.', '.'] then acc.dropLast else acc ++ [c]

/-- Lexical normalization of an absolute component list: `..` pops, and `..`
at the root stays at the root, as `os.path.realpath` does. -/
def normComps (cs : List Str) : List Str := cs.foldl normStep []

/-- `p.resolve(strict=False)` in a symlink-free world: prepend the working
directory if relative, then eliminate `..` lexically.  `cwd` is the process
working directory, already resolved. -/
def resolveLex (cwd : List Str) (p : RawPath) : List Str :=
  normComps ((if p.abs then [] else cwd) ++ p.comps)

/-- `str(path)` for a resolved absolute path: `"/"` for the root, otherwise
`"/" + "/".join(comps)`. -/
def strOfAbs : List Str → Str
  | [] => ['/']
  | cs => '/' :: interS cs
where
  /-- `"/".join(parts)`. -/
  interS : List Str → Str
    | [] => []
    | [c] => c
    | c :: rest => c ++ '/' :: interS rest

/-- `_is_within(base, target)` (speedclone.py lines 55-61): resolve both paths
and test `str(target).startswith(str(base) + os.sep)`.  The `except` branch is
unreachable in the lexical model (`resolve(strict=False)` does not raise). -/
def is_within (cwd : List Str) (base target : RawPath) : Bool :=
  ((strOfAbs (resolveLex cwd base)) ++ ['/']).isPrefixOf (strOfAbs (resolveLex cwd target))

/-- The destination-relative safety notion used by the spec: `b` lies strictly
inside directory `a` (both resolved absolute component lists). -/
def strictlyInside (a b : List Str) : Prop := a <+: b ∧ a ≠ b

instance (a b : List Str) : Decidable (strictlyInside a b) := by
  unfold strictlyInside; infer_instance

/-- A path component as produced by the pathlib constructor: nonempty, free of
separators, not `"."` (it may be `".."`). -/
def okComp (c : Str) : Prop := c ≠ [] ∧ '/' ∉ c ∧ c ≠ ['.']

def pathComps (l : List Str) : Prop := ∀ c ∈ l, okComp c

/-- No `".."` component (true of any resolved path). -/
def noDD (l : List Str) : Prop := ∀ c ∈ l, c ≠ ['.', '.']

instance (l : List Str) : Decidable (pathComps l) := by unfold pathComps okComp; infer_instance
instance (l : List Str) : Decidable (noDD l) := by unfold noDD; infer_instance

/-! ## The filesystem model -/

/-- POSIX error kinds the embedded code distinguishes. -/
inductive OsErr | enoent | eexist | enotdir | eisdir
deriving DecidableEq, Repr

/-- Filesystem state: resolved directory paths and (resolved path, content)
regular files, most recent write first.  The root `[]` always exists.  No
symbolic links exist: the program never creates one. -/
structure FS where
  dirs : List (List Str)
  files : List (List Str × Str)
deriving DecidableEq, Repr

def FS.isDir (fs : FS) (p : List Str) : Bool := p = [] || p ∈ fs.dirs

def FS.isFile (fs : FS) (p : List Str) : Bool := p ∈ fs.files.map Prod.fst

/-- Content of the regular file at `p`, if any (latest write wins). -/
def FS.fileContent (fs : FS) (p : List Str) : Option Str :=
  (fs.files.find? (fun e => e.1 = p)).map Prod.snd

/-- The starting directory for resolving `p`: the root if absolute, else the
working directory. -/
def startOf (cwd : List Str) (p : RawPath) : List Str := if p.abs then [] else cwd

/-- Kernel path walk: consume components from directory `cur`, requiring every
step to land on an existing directory.  `..` moves to the parent (staying at
the root), a missing entry is `ENOENT`, a file in the middle is `ENOTDIR`. -/
def walkDir (fs : FS) : List Str → List Str → Except OsErr (List Str)
  | cur, [] => .ok cur
  | cur, c :: rest =>
    if c = ['.', '.'] then walkDir fs cur.dropLast rest
    else if fs.isDir (cur ++ [c]) then walkDir fs (cur ++ [c]) rest
    else if fs.isFile (cur ++ [c]) then .error .enotdir
    else .error .enoent

/-- `os.mkdir(p)`: resolve the dirname, then create the basename inside it.
A trailing `..` (or an empty path) resolves to an existing directory and
yields `EEXIST`. -/
def osMkdir (cwd : List Str) (fs : FS) (p : RawPath) : Except OsErr FS :=
  match p.comps.getLast? with
  | none => .error .eexist
  | some last =>
    match walkDir fs (startOf cwd p) p.comps.dropLast with
    | .error e => .error e
    | .ok d =>
      if last = ['.', '.'] then .error .eexist
      else if fs.isDir (d ++ [last]) || fs.isFile (d ++ [last]) then .error .eexist
      else .ok ⟨(d ++ [last]) :: fs.dirs, fs.files⟩

/-- `p.is_dir()`: the full walk succeeds (so it ends on a directory). -/
def isDirRaw (cwd : List Str) (fs : FS) (p : RawPath) : Bool :=
  match walkDir fs (startOf cwd p) p.comps with
  | .ok _ => true
  | .error _ => false

/-- `pathlib.Path.mkdir(parents=..., exist_ok=...)`, following CPython: try
`os.mkdir`; on `FileNotFoundError` with `parents` create the parent
(recursively, `exist_ok=True`) and retry without `parents`; on any other
`OSError` succeed iff `exist_ok` and the path is a directory.  Partial state
is kept on error.  Fuel bounds the parent recursion. -/
def mkdirPath (cwd : List Str) (fs : FS) (p : RawPath) (parents exOk : Bool) :
    Nat → FS × Option OsErr
  | 0 => (fs, some .enoent)
  | fuel + 1 =>
    match osMkdir cwd fs p with
    | .ok fs1 => (fs1, none)
    | .error .enoent =>
      if parents && !p.comps.isEmpty then
        match mkdirPath cwd fs p.parent true true fuel with
        | (fs1, some e) => (fs1, some e)
        | (fs1, none) =>
          match osMkdir cwd fs1 p with
          | .ok fs2 => (fs2, none)
          | .error .enoent => (fs1, some .enoent)
          | .error e => if exOk && isDirRaw cwd fs1 p then (fs1, none) else (fs1, some e)
      else (fs, some .enoent)
    | .error e => if exOk && isDirRaw cwd fs p then (fs, none) else (fs, some e)

/-- `p.mkdir(parents=True, exist_ok=exOk)` with sufficient fuel. -/
def mkdirP (cwd : List Str) (fs : FS) (p : RawPath) (exOk : Bool) : FS × Option OsErr :=
  mkdirPath cwd fs p true exOk (p.comps.length + 1)

/-- `open(p, "wb")` + write + close: resolve the dirname, fail on a directory
target, create or truncate the file. -/
def openWrite (cwd : List Str) (fs : FS) (p : RawPath) (content : Str) : FS × Option OsErr :=
  match p.comps.getLast? with
  | none => (fs, some .eisdir)
  | some last =>
    match walkDir fs (startOf cwd p) p.comps.dropLast with
    | .error e => (fs, some e)
    | .ok d =>
      if last = ['.', '.'] then (fs, some .eisdir)
      else if fs.isDir (d ++ [last]) then (fs, some .eisdir)
      else (⟨fs.dirs, (d ++ [last], content) :: fs.files⟩, none)

/-- `Path.exists()`. -/
def pathExists (cwd : List Str) (fs : FS) (p : RawPath) : Bool :=
  match walkDir fs (startOf cwd p) p.comps.dropLast with
  | .error _ => false
  | .ok d =>
    match p.comps.getLast? with
    | none => true
    | some last =>
      if last = ['.', '.'] then fs.isDir d.dropLast
      else fs.isDir (d ++ [last]) || fs.isFile (d ++ [last])

/-- Sequencing of effectful steps: stop at the first error, keeping state. -/
def fsSeq (r : FS × Option OsErr) (k : FS → FS × Option OsErr) : FS × Option OsErr :=
  match r with
  | (fs, none) => k fs
  | (fs, some e) => (fs, some e)

example : mkRawPath "/d/../e/x".toList = ⟨true, ["d".toList, "..".toList, "e".toList, "x".toList]⟩ := by decide
example : resolveLex [] (mkRawPath "/d/../e/../d/x".toList) = ["d".toList, "x".toList] := by decide
example : is_within [] (mkRawPath "/d".toList) (mkRawPath "/d/../e/../d/x".toList) = true := by decide
example : is_within [] (mkRawPath "/d".toList) (mkRawPath "/d/../etc/passwd".toList) = false := by decide
example : is_within [] (mkRawPath "/d".toList) (mkRawPath "/d".toList) = false := by decide

/-! ## Archive extraction (`_extract_tar_to`, `_extract_zip_to`) -/

/-- Errors extraction can raise: the explicit `RuntimeError` for a tar archive
with no directory entry, or a propagated filesystem error. -/
inductive ExtractErr
  | malformed
  | fsErr (e : OsErr)
deriving DecidableEq, Repr

/-- `tarfile.TarInfo` entry kinds the source distinguishes. -/
inductive TarType | dir | file | sym | lnk | other
deriving DecidableEq, Repr

/-- A tar member: name, kind, mode bits, and the `extractfile` payload
(`none` models `tf.extractfile(m) is None`). -/
structure TarEntry where
  name : Str
  etype : TarType
  mode : Nat
  content : Option Str
deriving DecidableEq, Repr

def TarEntry.isdir (m : TarEntry) : Bool := m.etype = .dir
def TarEntry.isfile (m : TarEntry) : Bool := m.etype = .file
def TarEntry.issym (m : TarEntry) : Bool := m.etype = .sym
def TarEntry.islnk (m : TarEntry) : Bool := m.etype = .lnk

/-- Lines 69-73: the name of the first directory member, `rstrip('/') + '/'`. -/
def tarTopDir : List TarEntry → Option Str
  | [] => none
  | m :: rest => if m.isdir then some (rstripSlash m.name ++ ['/']) else tarTopDir rest

/-- Lines 77-79: the prefix-stripped remainder of a member name, or `none`
when the member is to be skipped (name outside the prefix, or empty rest). -/
def tarRel (pre : Str) (m : TarEntry) : Option Str :=
  if pre.isPrefixOf m.name then
    let rel := m.name.drop pre.length
    if rel = [] then none else some rel
  else none

/-- Line 80: `out = dst / rel`. -/
def tarOut (dst : RawPath) (rel : Str) : RawPath := joinPath dst (mkRawPath rel)

/-- Lines 80-96: processing of a single tar member. -/
def tarStep (cwd : List Str) (dst : RawPath) (pre : Str) (fs : FS) (m : TarEntry) :
    FS × Option ExtractErr :=
  match tarRel pre m with
  | none => (fs, none)
  | some rel =>
    if !is_within cwd dst (tarOut dst rel) then (fs, none)
    else if m.issym || m.islnk then (fs, none)
    else if m.isdir then
      match mkdirP cwd fs (tarOut dst rel) true with
      | (fs1, none) => (fs1, none)
      | (fs1, some e) => (fs1, some (.fsErr e))
    else if m.isfile then
      match mkdirP cwd fs (tarOut dst rel).parent true with
      | (fs1, some e) => (fs1, some (.fsErr e))
      | (fs1, none) =>
        match m.content with
        | none => (fs1, none)
        | some c =>
          match openWrite cwd fs1 (tarOut dst rel) c with
          | (fs2, none) => (fs2, none)
          | (fs2, some e) => (fs2, some (.fsErr e))
    else (fs, none)

def tarFold (cwd : List Str) (dst : RawPath) (pre : Str) :
    FS → List TarEntry → FS × Option ExtractErr
  | fs, [] => (fs, none)
  | fs, m :: rest =>
    match tarStep cwd dst pre fs m with
    | (fs1, none) => tarFold cwd dst pre fs1 rest
    | (fs1, some e) => (fs1, some e)

/-- `_extract_tar_to(tf, dst)` (lines 68-96). -/
def extract_tar_to (cwd : List Str) (entries : List TarEntry) (dst : RawPath) (fs : FS) :
    FS × Option ExtractErr :=
  match tarTopDir entries with
  | none => (fs, some .malformed)
  | some pre => tarFold cwd dst pre fs entries

/-- A zip member: name, `external_attr`, and payload bytes. -/
structure ZipEntry where
  name : Str
  externalAttr : Nat
  content : Str
deriving DecidableEq, Repr

/-- Whether a zip member records a symbolic link: the Unix `lstat` mode in the
upper 16 bits of `external_attr` has file type `S_IFLNK` (0xA000).  This is
claim-side vocabulary (the standard zip encoding of symlinks); the source
never inspects these type bits. -/
def ZipEntry.isSymlinkEntry (e : ZipEntry) : Bool :=
  (e.externalAttr >>> 16) &&& 0xF000 = 0xA000

/-- Lexicographic code-point comparison, matching Python `<` on strings. -/
def strLt : Str → Str → Bool
  | [], [] => false
  | [], _ :: _ => true
  | _ :: _, [] => false
  | a :: as, b :: bs => if a < b then true else if a = b then strLt as bs else false

/-- Insertion sort by code-point order, matching Python `sorted` on strings. -/
def strLe (a b : Str) : Bool := strLt a b || a = b

def insertSorted (s : Str) : List Str → List Str
  | [] => [s]
  | t :: rest => if strLe s t then s :: t :: rest else t :: insertSorted s rest

def sortStrs : List Str → List Str
  | [] => []
  | s :: rest => insertSorted s (sortStrs rest)

/-- Line 99: `sorted({name.split('/',1)[0]+'/' for name in namelist if '/' in name})`. -/
def zipRoots (es : List ZipEntry) : List Str :=
  sortStrs ((es.filterMap
    (fun e => if '/' ∈ e.name then some (e.name.takeWhile (fun c => c != '/') ++ ['/']) else none)).dedup)

/-- Line 100: `roots[0] if roots else ''`. -/
def zipTopDir (es : List ZipEntry) : Str := (zipRoots es).headD []

/-- Lines 102-106: the prefix-stripped remainder of a zip name, or `none`
when the member is skipped. -/
def zipRel (pre : Str) (name : Str) : Option Str :=
  if pre ≠ [] && !pre.isPrefixOf name then none
  else
    let rel := name.drop pre.length
    if rel = [] then none else some rel

/-- Line 107: `out = (dst / rel).resolve(strict=False)`, an absolute resolved
path, unlike the tar variant. -/
def zipOut (cwd : List Str) (dst : RawPath) (rel : Str) : RawPath :=
  ⟨true, resolveLex cwd (joinPath dst (mkRawPath rel))⟩

/-- Lines 101-124: processing of a single zip member.  Note `out` is resolved
before the containment check (line 107), unlike the tar path. -/
def zipStep (cwd : List Str) (dst : RawPath) (pre : Str) (fs : FS) (e : ZipEntry) :
    FS × Option ExtractErr :=
  match zipRel pre e.name with
  | none => (fs, none)
  | some rel =>
    if !is_within cwd dst (zipOut cwd dst rel) then (fs, none)
    else if e.name.getLast? = some '/' then
      match mkdirP cwd fs (zipOut cwd dst rel) true with
      | (fs1, none) => (fs1, none)
      | (fs1, some er) => (fs1, some (.fsErr er))
    else
      match mkdirP cwd fs (zipOut cwd dst rel).parent true with
      | (fs1, some er) => (fs1, some (.fsErr er))
      | (fs1, none) =>
        match openWrite cwd fs1 (zipOut cwd dst rel) e.content with
        | (fs2, none) => (fs2, none)
        | (fs2, some er) => (fs2, some (.fsErr er))

def zipFold (cwd : List Str) (dst : RawPath) (pre : Str) :
    FS → List ZipEntry → FS × Option ExtractErr
  | fs, [] => (fs, none)
  | fs, e :: rest =>
    match zipStep cwd dst pre fs e with
    | (fs1, none) => zipFold cwd dst pre fs1 rest
    | (fs1, some er) => (fs1, some er)

/-- `_extract_zip_to(zf, dst)` (lines 98-124). -/
def extract_zip_to (cwd : List Str) (entries : List ZipEntry) (dst : RawPath) (fs : FS) :
    FS × Option ExtractErr :=
  zipFold cwd dst (zipTopDir entries) fs entries

/-! ## Snapshot acquisition cascade (`_download_snapshot`, lines 126-162) -/

inductive ArchiveFormat | targz | zipf
deriving DecidableEq, Repr

inductive FetchMode | streamed | buffered
deriving DecidableEq, Repr

inductive AddrKind | sha | branch
deriving DecidableEq, Repr

/-- One acquisition tier: archive format, transfer mode, addressing. -/
structure Tier where
  format : ArchiveFormat
  mode : FetchMode
  addr : AddrKind
deriving DecidableEq, Repr

/-- The six tiers, in the order of the six try-blocks of `_download_snapshot`. -/
def tierOrder : List Tier :=
  [⟨.targz, .streamed, .sha⟩, ⟨.targz, .streamed, .branch⟩,
   ⟨.targz, .buffered, .sha⟩, ⟨.targz, .buffered, .branch⟩,
   ⟨.zipf, .buffered, .sha⟩, ⟨.zipf, .buffered, .branch⟩]

/-- The per-tier diagnostic label used in the aggregated error message. -/
def tierLabel (t : Tier) : Str :=
  match t with
  | ⟨.targz, .streamed, .sha⟩ => "tar.gz(stream)@sha".toList
  | ⟨.targz, .streamed, .branch⟩ => "tar.gz(stream)@branch".toList
  | ⟨.targz, .buffered, .sha⟩ => "tar.gz@sha".toList
  | ⟨.targz, .buffered, .branch⟩ => "tar.gz@branch".toList
  | ⟨.zipf, .buffered, .sha⟩ => "zip@sha".toList
  | ⟨.zipf, .buffered, .branch⟩ => "zip@branch".toList
  | ⟨.zipf, .streamed, .sha⟩ => "zip@sha".toList
  | ⟨.zipf, .streamed, .branch⟩ => "zip@branch".toList

def snapshotFailHead : Str := "スナップショットのダウンロードに失敗しました: ".toList

/-- The cascade over a tier list: each tier's download + extraction is the
oracle `attempt`, which mutates the destination and either returns or raises a
message.  The middle component records the attempted tiers in order; error
details accumulate exactly as in the source's `errs` list. -/
def snapshotGo (attempt : Tier → FS → FS × Except Str Unit) :
    FS → List Tier → List Str → FS × List Tier × Except Str Unit
  | fs, [], errs =>
    (fs, [], .error (snapshotFailHead ++ (List.intercalate "; ".toList errs)))
  | fs, t :: rest, errs =>
    match attempt t fs with
    | (fs1, .ok _) => (fs1, [t], .ok ())
    | (fs1, .error e) =>
      let r := snapshotGo attempt fs1 rest (errs ++ [tierLabel t ++ ": ".toList ++ e])
      (r.1, t :: r.2.1, r.2.2)

/-- `_download_snapshot`: the six try-blocks in order, stopping at the first
success, raising the aggregated `RuntimeError` after the sixth failure. -/
def download_snapshot (attempt : Tier → FS → FS × Except Str Unit) (fs : FS) :
    FS × List Tier × Except Str Unit :=
  snapshotGo attempt fs tierOrder []

/-! ## HTML reference resolution (`_guess_default_sha_html`, lines 35-53) -/

/-- The candidate branch list `([branch_hint] if branch_hint else []) + ["main","master"]`. -/
def candidateBranches (hint : Option Str) : List Str :=
  (match hint with | some b => [b] | none => []) ++ ["main".toList, "master".toList]

/-- One loop over candidate branches with one page probe per branch.  The
oracle returns `none` when the fetch raised or the pattern did not match
(both cases `continue` in the source). -/
def firstProbe (probe : Str → Option Str) : List Str → Option (Str × Str)
  | [] => none
  | b :: rest =>
    match probe b with
    | some sha => some (b, sha)
    | none => firstProbe probe rest

/-- `_guess_default_sha_html`: first a full pass probing every candidate
branch's commit-history page (40-hex commit-link pattern), then — only if
that whole pass found nothing — a second full pass probing every candidate
branch's tree page (7-40-hex commit-tease pattern).  `probeCommits`/`probeTree`
abstract scrape-plus-regex for one branch.  `.error ()` is the final
`RuntimeError`. -/
def guess_default_sha_html (probeCommits probeTree : Str → Option Str)
    (hint : Option Str) : Except Unit (Str × Str) :=
  match firstProbe probeCommits (candidateBranches hint) with
  | some r => .ok r
  | none =>
    match firstProbe probeTree (candidateBranches hint) with
    | some r => .ok r
    | none => .error ()

/-- Modelled from the spec: the resolution order §4.2 describes — "for each
candidate branch in turn — fetch the repository's commit-history page ...;
if no match, fetch the repository's tree page for that branch ....  First
branch yielding a match wins", i.e. both pages are tried per branch before
moving to the next branch.  For comparison with `guess_default_sha_html`. -/
def guessShaSpecOrder (probeCommits probeTree : Str → Option Str)
    (hint : Option Str) : Except Unit (Str × Str) :=
  go (candidateBranches hint)
where
  go : List Str → Except Unit (Str × Str)
    | [] => .error ()
    | b :: rest =>
      match probeCommits b with
      | some sha => .ok (b, sha)
      | none =>
        match probeTree b with
        | some sha => .ok (b, sha)
        | none => go rest

/-! ## Repository locator (`_owner_repo`, lines 26-33) -/

def isSchemeChar (c : Char) : Bool := c.isAlphanum || c = '+' || c = '-' || c = '.'

/-- The scheme-stripping step of `urllib.parse.urlparse`: remove `scheme:`
when the text before the first `:` is a well-formed scheme. -/
def dropScheme (url : Str) : Str :=
  let pre := url.takeWhile (fun c => c != ':')
  if pre.length < url.length && !pre.isEmpty &&
      (match pre with
       | c :: rest => c.isAlpha && rest.all isSchemeChar
       | [] => false) then
    url.drop (pre.length + 1)
  else url

/-- The netloc step of `urlparse`: after `//`, up to the next `/`, `?` or `#`. -/
def netlocSplit (s : Str) : Str × Str :=
  if "//".toList.isPrefixOf s then
    let rest := s.drop 2
    let netloc := rest.takeWhile (fun c => c != '/' && c != '?' && c != '#')
    (netloc, rest.drop netloc.length)
  else ([], s)

/-- Remove fragment and query from the remaining path. -/
def stripFragQuery (s : Str) : Str := (s.takeWhile (fun c => c != '#')).takeWhile (fun c => c != '?')

/-- `urlparse(url)` restricted to the two fields the source reads. -/
def urlparseNetlocPath (url : Str) : Str × Str :=
  let rest := dropScheme url
  let np := netlocSplit rest
  (np.1, stripFragQuery np.2)

/-- Line 29: `[p for p in u.path.split('/') if p]`. -/
def urlPathParts (url : Str) : List Str :=
  (pySplit '/' (urlparseNetlocPath url).2).filter (fun p => !p.isEmpty)

/-- Line 32: strip a trailing `.git` from the repository name. -/
def stripDotGit (repo : Str) : Str :=
  if ".git".toList.isSuffixOf repo then repo.take (repo.length - 4) else repo

/-- `_owner_repo(url)`: require a GitHub netloc and at least two nonempty path
segments; owner and repo are the last two (`parts[-2]`, `parts[-1]`), with a
trailing `.git` stripped from repo.  `SystemExit` messages become `.error`. -/
def owner_repo (url : Str) : Except Str (Str × Str) :=
  if pyIn "github.com".toList (pyLower (urlparseNetlocPath url).1) then
    if h : (urlPathParts url).length < 2 then .error "不正なURLです。".toList
    else
      .ok ((urlPathParts url).get ⟨(urlPathParts url).length - 2, by omega⟩,
        stripDotGit ((urlPathParts url).get ⟨(urlPathParts url).length - 1, by omega⟩))
  else .error "GitHub HTTPS URLのみ対応しています。".toList

/-! ## Git skeleton synthesis (`_write_git_skeleton`, lines 164-197) -/

/-- The `config` file text (lines 174-195 after `.lstrip()`). -/
def gitConfigText (remoteUrl defaultBranch : Str) : Str :=
  "[core]\n\trepositoryformatversion = 0\n\tfilemode = true\n\tbare = false\n\tlogallrefupdates = true\n[remote \"origin\"]\n\turl = ".toList
  ++ remoteUrl
  ++ "\n\tfetch = +refs/heads/*:refs/remotes/origin/*\n\tpromisor = true\n\tpartialclonefilter = blob:none\n[remote \"upstream\"]\n\turl = ".toList
  ++ remoteUrl
  ++ "\n\tfetch = +refs/heads/*:refs/remotes/upstream/*\n\tpromisor = true\n\tpartialclonefilter = blob:none\n[branch \"".toList
  ++ defaultBranch
  ++ "\"]\n\tremote = origin\n\tmerge = refs/heads/".toList
  ++ defaultBranch
  ++ "\n[extensions]\n\tpartialClone = origin\n".toList

/-- `_write_git_skeleton(dst, remote_url, default_branch, head_sha)`: four
mkdirs then six file writes, in source order. -/
def write_git_skeleton (cwd : List Str) (fs : FS) (dst : RawPath)
    (remoteUrl defaultBranch headSha : Str) : FS × Option OsErr :=
  let git := joinPath dst (mkRawPath ".git".toList)
  fsSeq (mkdirP cwd fs (joinPath git (mkRawPath "refs/heads".toList)) true) fun fs =>
  fsSeq (mkdirP cwd fs (joinPath git (mkRawPath "refs/remotes/origin".toList)) true) fun fs =>
  fsSeq (mkdirP cwd fs (joinPath git (mkRawPath "refs/remotes/upstream".toList)) true) fun fs =>
  fsSeq (mkdirP cwd fs (joinPath git (mkRawPath "objects/info".toList)) true) fun fs =>
  fsSeq (openWrite cwd fs (joinPath git (mkRawPath "HEAD".toList))
      ("ref: refs/heads/".toList ++ defaultBranch ++ ['\n'])) fun fs =>
  fsSeq (openWrite cwd fs (joinPath (joinPath git (mkRawPath "refs/heads".toList)) (mkRawPath defaultBranch))
      (headSha ++ ['\n'])) fun fs =>
  fsSeq (openWrite cwd fs (joinPath (joinPath git (mkRawPath "refs/remotes/origin".toList)) (mkRawPath defaultBranch))
      (headSha ++ ['\n'])) fun fs =>
  fsSeq (openWrite cwd fs (joinPath (joinPath git (mkRawPath "refs/remotes/upstream".toList)) (mkRawPath defaultBranch))
      (headSha ++ ['\n'])) fun fs =>
  fsSeq (openWrite cwd fs (joinPath git (mkRawPath "config".toList))
      (gitConfigText remoteUrl defaultBranch)) fun fs =>
  openWrite cwd fs (joinPath git (mkRawPath "objects/info/promisor".toList)) "promisor\n".toList

/-! ## CLI entry (`main`, lines 226-245) -/

/-- The `--force` clearing loops (lines 235-240): unlink every file under the
destination, then remove the now-empty directories bottom-up.  Net effect:
drop every path strictly below the resolved destination. -/
def clearUnder (cwd : List Str) (fs : FS) (target : RawPath) : FS :=
  let d := resolveLex cwd target
  ⟨fs.dirs.filter (fun p => !(d.isPrefixOf p && p ≠ d)),
   fs.files.filter (fun e => !(d.isPrefixOf e.1 && e.1 ≠ d))⟩

/-- Exit status of the guarded `bootstrap` call: 0 on return, 2 on any
exception (line 245). -/
def bootExit (r : FS × Except Str Unit) : FS × Nat :=
  match r with
  | (fs2, .ok _) => (fs2, 0)
  | (fs2, .error _) => (fs2, 2)

/-- The shared tail of `main` after the existence check: `dst.mkdir(parents=
True, exist_ok=True)` (an error here is an uncaught exception, interpreter
exit status 1), then `bootstrap` inside try/except (exit 2 on any exception),
else implicit success (exit 0).  `boot` abstracts `bootstrap(url, dst)`. -/
def mainGo (boot : FS → FS × Except Str Unit) (cwd : List Str) (fs : FS) (target : RawPath) :
    FS × Nat :=
  match mkdirP cwd fs target true with
  | (fs1, some _) => (fs1, 1)
  | (fs1, none) => bootExit (boot fs1)

/-- `main()` from the destination check onwards: report (exit status 1) and
stop when the destination exists and `--force` was not given. -/
def mainRun (boot : FS → FS × Except Str Unit) (cwd : List Str) (fs : FS)
    (target : RawPath) (force : Bool) : FS × Nat :=
  if pathExists cwd fs target then
    if !force then (fs, 1)
    else mainGo boot cwd (clearUnder cwd fs target) target
  else mainGo boot cwd fs target

/-! ## Path lemmas: the string containment check versus component prefixes -/

theorem pySplit_no_sep (sep : Char) : ∀ (s : Str), ∀ c ∈ pySplit sep s, sep ∉ c := by
  intro s
  induction s with
  | nil => intro c hc; simp [pySplit] at hc; simp [hc]
  | cons x rest ih =>
    intro c hc
    by_cases hx : x = sep
    · simp [pySplit, hx] at hc
      rcases hc with h | h
      · simp [h]
      · exact ih c h
    · simp [pySplit, hx] at hc
      rcases hr : pySplit sep rest with _ | ⟨r, rs⟩
      · simp [hr] at hc
        simp [hc]
        exact fun h => hx (h.symm)
      · simp [hr] at hc
        rcases hc with h | h
        · subst h
          intro hmem
          rcases List.mem_cons.1 hmem with h | h
          · exact hx h.symm
          · exact ih r (by simp [hr]) h
        · exact ih c (by rw [hr]; exact List.mem_cons_of_mem r h)

theorem mkRawPath_pathComps (s : Str) : pathComps (mkRawPath s).comps := by
  intro c hc
  simp only [mkRawPath, List.mem_filter, decide_eq_true_eq] at hc
  refine ⟨hc.2.1, ?_, hc.2.2⟩
  exact pySplit_no_sep '/' s c hc.1

theorem foldl_normStep_mem :
    ∀ (l acc : List Str) (c : Str), c ∈ List.foldl normStep acc l → c ∈ acc ∨ c ∈ l := by
  intro l
  induction l with
  | nil => intro acc c h; exact Or.inl h
  | cons x rest ih =>
    intro acc c h
    rcases ih (normStep acc x) c h with h1 | h1
    · unfold normStep at h1
      split at h1
      · exact Or.inl (List.dropLast_subset acc h1)
      · rcases List.mem_append.1 h1 with h2 | h2
        · exact Or.inl h2
        · simp at h2; simp [h2]
    · simp [h1]

theorem normComps_mem (l : List Str) (c : Str) (h : c ∈ normComps l) : c ∈ l := by
  rcases foldl_normStep_mem l [] c h with h1 | h1
  · simp at h1
  · exact h1

theorem foldl_normStep_noDD :
    ∀ (l acc : List Str), noDD l → List.foldl normStep acc l = acc ++ l := by
  intro l
  induction l with
  | nil => intro acc _; simp
  | cons x rest ih =>
    intro acc h
    have hx : x ≠ ['.', '.'] := h x (by simp)
    have hrest : noDD rest := fun c hc => h c (by simp [hc])
    simp only [List.foldl_cons]
    rw [show normStep acc x = acc ++ [x] by simp [normStep, hx]]
    rw [ih (acc ++ [x]) hrest]
    simp

theorem noDD_normComps (l : List Str) : noDD (normComps l) := by
  suffices h : ∀ (l acc : List Str), noDD acc → noDD (List.foldl normStep acc l) from
    h l [] (by intro c hc; simp at hc)
  intro l
  induction l with
  | nil => intro acc h; exact h
  | cons x rest ih =>
    intro acc h
    refine ih (normStep acc x) ?_
    unfold normStep
    split
    · intro c hc; exact h c (List.dropLast_subset acc hc)
    · next hx =>
      intro c hc
      rcases List.mem_append.1 hc with h1 | h1
      · exact h c h1
      · simp at h1; simpa [h1] using hx

theorem normComps_of_noDD (l : List Str) (h : noDD l) : normComps l = l := by
  unfold normComps
  rw [foldl_normStep_noDD l [] h]
  simp

/-- Splitting a prefix relation across appends whose tails start with the
separator, given separator-free heads. -/
theorem eat_append : ∀ (a b x y : Str), '/' ∉ a → '/' ∉ b →
    x.head? = some '/' → y.head? = some '/' → a ++ x <+: b ++ y → a = b ∧ x <+: y := by
  intro a
  induction a with
  | nil =>
    intro b x y _ hb hx _ h
    rcases b with _ | ⟨c, b1⟩
    · exact ⟨rfl, by simpa using h⟩
    · rcases x with _ | ⟨x0, x1⟩
      · simp at hx
      · simp only [List.nil_append, List.cons_append] at h
        have := (List.cons_prefix_cons.1 h).1
        simp at hx
        subst hx
        rw [← this] at hb
        simp at hb
  | cons d a1 ih =>
    intro b x y ha hb hx hy h
    rcases b with _ | ⟨c, b1⟩
    · rcases y with _ | ⟨y0, y1⟩
      · simp at hy
      · simp only [List.cons_append, List.nil_append] at h
        have := (List.cons_prefix_cons.1 h).1
        simp at hy
        subst hy
        rw [this] at ha
        simp at ha
    · simp only [List.cons_append] at h
      have h1 := List.cons_prefix_cons.1 h
      have ha1 : '/' ∉ a1 := fun hm => ha (by simp [hm])
      have hb1 : '/' ∉ b1 := fun hm => hb (by simp [hm])
      rcases ih b1 x y ha1 hb1 hx hy h1.2 with ⟨he, hp⟩
      exact ⟨by rw [h1.1, he], hp⟩

theorem no_slash_head_interS :
    ∀ (B : List Str), (∀ c ∈ B, c ≠ [] ∧ '/' ∉ c) → ¬ (['/'] <+: strOfAbs.interS B) := by
  intro B hB h
  rcases B with _ | ⟨b, B'⟩
  · have h' : ['/'] <+: ([] : Str) := h
    simp at h'
  · obtain ⟨hbne, hbs⟩ := hB b (by simp)
    rcases b with _ | ⟨c, b1⟩
    · exact hbne rfl
    · rcases B' with _ | ⟨d, B''⟩
      · have h' : ['/'] <+: (c :: b1) := h
        have := (List.cons_prefix_cons.1 h').1
        exact hbs (by simp [← this])
      · have h' : ['/'] <+: c :: (b1 ++ '/' :: strOfAbs.interS (d :: B'')) := h
        have := (List.cons_prefix_cons.1 h').1
        exact hbs (by simp [← this])

theorem interS_prefix :
    ∀ (A B : List Str), (∀ c ∈ A, c ≠ [] ∧ '/' ∉ c) → (∀ c ∈ B, c ≠ [] ∧ '/' ∉ c) →
    strOfAbs.interS A ++ ['/'] <+: strOfAbs.interS B → A <+: B ∧ A ≠ B := by
  intro A
  induction A with
  | nil =>
    intro B _ hB h
    have h' : ['/'] <+: strOfAbs.interS B := h
    exact absurd h' (no_slash_head_interS B hB)
  | cons a A' ih =>
    intro B hA hB h
    obtain ⟨hane, has⟩ := hA a (by simp)
    rcases B with _ | ⟨b, B'⟩
    · exfalso
      have h' : strOfAbs.interS (a :: A') ++ ['/'] <+: ([] : Str) := h
      rw [List.prefix_nil] at h'
      simp at h'
    · obtain ⟨hbne, hbs⟩ := hB b (by simp)
      rcases A' with _ | ⟨a2, A''⟩
      · rcases B' with _ | ⟨d, B''⟩
        · exfalso
          have h' : a ++ ['/'] <+: b := h
          exact hbs (h'.subset (by simp))
        · have h' : a ++ ['/'] <+: b ++ '/' :: strOfAbs.interS (d :: B'') := h
          have he := eat_append a b ['/'] ('/' :: strOfAbs.interS (d :: B'')) has hbs rfl rfl h'
          refine ⟨List.cons_prefix_cons.2 ⟨he.1, List.nil_prefix⟩, ?_⟩
          intro hEq
          simp at hEq
      · rcases B' with _ | ⟨d, B''⟩
        · exfalso
          have h' : (a ++ '/' :: strOfAbs.interS (a2 :: A'')) ++ ['/'] <+: b := h
          rw [List.append_assoc] at h'
          exact hbs (h'.subset (by simp))
        · have h' : (a ++ '/' :: strOfAbs.interS (a2 :: A'')) ++ ['/'] <+:
              b ++ '/' :: strOfAbs.interS (d :: B'') := h
          rw [List.append_assoc] at h'
          have he := eat_append a b ('/' :: (strOfAbs.interS (a2 :: A'') ++ ['/']))
            ('/' :: strOfAbs.interS (d :: B'')) has hbs rfl rfl (by simpa using h')
          have h2 := (List.cons_prefix_cons.1 he.2).2
          have hrec := ih (d :: B'') (fun c hc => hA c (by simp [hc]))
            (fun c hc => hB c (by simp [hc])) h2
          refine ⟨List.cons_prefix_cons.2 ⟨he.1, hrec.1⟩, ?_⟩
          intro hEq
          rw [List.cons_eq_cons] at hEq
          exact hrec.2 hEq.2

theorem within_strict (A B : List Str)
    (hA : ∀ c ∈ A, c ≠ [] ∧ '/' ∉ c) (hB : ∀ c ∈ B, c ≠ [] ∧ '/' ∉ c)
    (h : (strOfAbs A ++ ['/']).isPrefixOf (strOfAbs B) = true) : A <+: B ∧ A ≠ B := by
  rw [List.isPrefixOf_iff_prefix] at h
  rcases A with _ | ⟨a, A'⟩
  · exfalso
    rcases B with _ | ⟨b, B'⟩
    · have h' : ['/', '/'] <+: ['/'] := h
      simp at h'
    · have h' : ['/', '/'] <+: '/' :: strOfAbs.interS (b :: B') := h
      have h2 := (List.cons_prefix_cons.1 h').2
      exact no_slash_head_interS (b :: B') hB h2
  · rcases B with _ | ⟨b, B'⟩
    · exfalso
      have h' : '/' :: (strOfAbs.interS (a :: A') ++ ['/']) <+: ['/'] := h
      have h2 := (List.cons_prefix_cons.1 h').2
      rw [List.prefix_nil] at h2
      simp at h2
    · have h' : '/' :: (strOfAbs.interS (a :: A') ++ ['/']) <+: '/' :: strOfAbs.interS (b :: B') := h
      have h2 := (List.cons_prefix_cons.1 h').2
      exact interS_prefix (a :: A') (b :: B') hA hB h2

theorem resolveLex_good (cwd : List Str) (p : RawPath)
    (hc : pathComps cwd) (hp : pathComps p.comps) :
    ∀ c ∈ resolveLex cwd p, c ≠ [] ∧ '/' ∉ c := by
  intro c hmem
  have h1 := normComps_mem _ c hmem
  rcases List.mem_append.1 h1 with h2 | h2
  · split at h2
    · simp at h2
    · obtain ⟨x1, x2, _⟩ := hc c h2
      exact ⟨x1, x2⟩
  · obtain ⟨x1, x2, _⟩ := hp c h2
    exact ⟨x1, x2⟩

/-- Soundness of the source's `_is_within` check: when it accepts, the
resolved target lies strictly inside the resolved base. -/
theorem is_within_sound (cwd : List Str) (base target : RawPath)
    (hc : pathComps cwd) (hb : pathComps base.comps) (ht : pathComps target.comps)
    (h : is_within cwd base target = true) :
    strictlyInside (resolveLex cwd base) (resolveLex cwd target) :=
  within_strict _ _ (resolveLex_good cwd base hc hb) (resolveLex_good cwd target hc ht) h

/-! ## Filesystem operation lemmas -/

/-- All prefixes of `a` (including `[]` and `a`) are directories of `fs`,
stated decidably over `take`. -/
def chainDir (fs : FS) (a : List Str) : Bool :=
  (List.range (a.length + 1)).all (fun n => fs.isDir (a.take n))

theorem chainDir_isDir (fs : FS) (a q : List Str) (h : chainDir fs a = true)
    (hq : q <+: a) : fs.isDir q = true := by
  have hlen : q.length < a.length + 1 := Nat.lt_succ_of_le hq.length_le
  have := (List.all_eq_true.1 h) q.length (List.mem_range.2 hlen)
  rwa [← List.prefix_iff_eq_take.1 hq] at this

theorem isDir_mono (fs fs' : FS) (p : List Str) (h : fs.dirs ⊆ fs'.dirs)
    (hd : fs.isDir p = true) : fs'.isDir p = true := by
  simp only [FS.isDir, Bool.or_eq_true, decide_eq_true_eq, List.elem_eq_mem] at hd ⊢
  rcases hd with h1 | h1
  · exact Or.inl h1
  · exact Or.inr (h h1)

theorem chainDir_mono (fs fs' : FS) (a : List Str) (h : fs.dirs ⊆ fs'.dirs)
    (hc : chainDir fs a = true) : chainDir fs' a = true := by
  rw [chainDir, List.all_eq_true] at hc ⊢
  intro n hn
  exact isDir_mono fs fs' _ h (hc n hn)

theorem walkDir_ok_foldl (fs : FS) :
    ∀ (l cur r : List Str), walkDir fs cur l = .ok r → r = List.foldl normStep cur l := by
  intro l
  induction l with
  | nil => intro cur r h; simp [walkDir] at h; simp [h]
  | cons c rest ih =>
    intro cur r h
    rw [walkDir] at h
    split at h
    · next hc =>
      have := ih cur.dropLast r h
      simp [this, List.foldl_cons, normStep, hc]
    · next hc =>
      split at h
      · have := ih (cur ++ [c]) r h
        simp [this, List.foldl_cons, normStep, hc]
      · split at h <;> simp at h

theorem walkDir_ok_noDD (fs : FS) (l cur r : List Str) (hdd : noDD l)
    (h : walkDir fs cur l = .ok r) : r = cur ++ l := by
  rw [walkDir_ok_foldl fs l cur r h]
  exact foldl_normStep_noDD l cur hdd

/-- When every (nonempty) extension prefix is already a directory, the walk
succeeds. -/
theorem walkDir_all_dirs (fs : FS) :
    ∀ (l cur : List Str), noDD l →
    (∀ q, q <+: l → q ≠ [] → fs.isDir (cur ++ q) = true) →
    walkDir fs cur l = .ok (cur ++ l) := by
  intro l
  induction l with
  | nil => intro cur _ _; simp [walkDir]
  | cons c rest ih =>
    intro cur hdd hq
    have hc : c ≠ ['.', '.'] := hdd c (by simp)
    have h1 : fs.isDir (cur ++ [c]) = true := hq [c] ⟨rest, rfl⟩ (by simp)
    rw [walkDir, if_neg (by exact hc), if_pos h1]
    have := ih (cur ++ [c]) (fun x hx => hdd x (by simp [hx]))
      (fun q hql hqne => by
        have := hq (c :: q) (by
          obtain ⟨t, ht⟩ := hql
          exact ⟨t, by simp [← ht]⟩) (by simp)
        simpa [List.append_assoc] using this)
    rw [this]
    simp

/-- Successful `os.mkdir` with a clean working directory: exactly the
resolved path is added to the directory set, and it was not a directory
before. -/
theorem noDD_startOf (cwd : List Str) (p : RawPath) (hdd : noDD cwd) : noDD (startOf cwd p) := by
  unfold startOf
  split
  · intro c hc; simp at hc
  · exact hdd

/-- Resolution factored through a clean start directory. -/
theorem resolveLex_foldl (cwd : List Str) (p : RawPath) (hdd : noDD cwd) :
    resolveLex cwd p = List.foldl normStep (startOf cwd p) p.comps := by
  rw [resolveLex]
  rw [show normComps ((if p.abs = true then [] else cwd) ++ p.comps) =
      List.foldl normStep (normComps (startOf cwd p)) p.comps by
    rw [normComps, normComps, List.foldl_append]; rfl]
  rw [normComps_of_noDD _ (noDD_startOf cwd p hdd)]

theorem osMkdir_ok (cwd : List Str) (fs fs' : FS) (p : RawPath) (hdd : noDD cwd)
    (h : osMkdir cwd fs p = .ok fs') :
    fs' = ⟨resolveLex cwd p :: fs.dirs, fs.files⟩ ∧ fs.isDir (resolveLex cwd p) = false := by
  unfold osMkdir at h
  split at h
  · simp at h
  · rename_i last hg
    split at h
    · simp at h
    · rename_i d hw
      split at h
      · simp at h
      · rename_i hlast
        split at h
        · simp at h
        · rename_i hex
          have hne : p.comps ≠ [] := by
            intro hc; rw [hc] at hg; simp at hg
          have hlv : p.comps.getLast hne = last := by
            have h2 := List.getLast?_eq_getLast_of_ne_nil hne
            rw [h2] at hg
            exact Option.some.inj hg
          have hcomps : p.comps = p.comps.dropLast ++ [last] := by
            conv_lhs => rw [← List.dropLast_append_getLast hne]
            rw [hlv]
          have hd : d = List.foldl normStep (startOf cwd p) p.comps.dropLast :=
            walkDir_ok_foldl fs _ _ _ hw
          have htarget : d ++ [last] = resolveLex cwd p := by
            rw [hd, resolveLex_foldl cwd p hdd]
            conv_rhs => rw [hcomps]
            rw [List.foldl_append]
            simp [normStep, hlast]
          simp only [Except.ok.injEq] at h
          constructor
          · rw [← h, ← htarget]
          · rw [← htarget]
            rw [Bool.or_eq_true, not_or] at hex
            simpa using Bool.not_eq_true _ ▸ hex.1

theorem resolveLex_noDD (cwd : List Str) (p : RawPath) (hdd : noDD cwd) (hp : noDD p.comps) :
    resolveLex cwd p = startOf cwd p ++ p.comps := by
  rw [resolveLex_foldl cwd p hdd, foldl_normStep_noDD _ _ hp]

/-- Any successful `os.mkdir` pushes one directory and keeps the files. -/
theorem osMkdir_shape (cwd : List Str) (fs fs' : FS) (p : RawPath)
    (h : osMkdir cwd fs p = .ok fs') :
    ∃ q, fs' = ⟨q :: fs.dirs, fs.files⟩ := by
  unfold osMkdir at h
  split at h
  · simp at h
  · split at h
    · simp at h
    · split at h
      · simp at h
      · split at h
        · simp at h
        · rename_i d _ _ last
          exact ⟨_, by simp only [Except.ok.injEq] at h; rw [← h]⟩

theorem mkdirPath_mono (cwd : List Str) :
    ∀ (fuel : Nat) (fs : FS) (p : RawPath) (par exOk : Bool),
    fs.dirs ⊆ (mkdirPath cwd fs p par exOk fuel).1.dirs ∧
    (mkdirPath cwd fs p par exOk fuel).1.files = fs.files := by
  intro fuel
  induction fuel with
  | zero => intro fs p par exOk; simp [mkdirPath]
  | succ n ih =>
    intro fs p par exOk
    rw [mkdirPath]
    split
    · rename_i fs1 hOk
      obtain ⟨q, hq⟩ := osMkdir_shape cwd fs fs1 p hOk
      subst hq
      exact ⟨by simp [List.subset_cons_of_subset], rfl⟩
    · split
      · split
        · rename_i fs1 e hrec
          have := ih fs p.parent true true
          rw [hrec] at this
          exact this
        · rename_i fs1 hrec
          have h1 := ih fs p.parent true true
          rw [hrec] at h1
          split
          · rename_i fs2 hOk2
            obtain ⟨q, hq⟩ := osMkdir_shape cwd fs1 fs2 p hOk2
            subst hq
            exact ⟨fun x hx => by simp [h1.1 hx], h1.2⟩
          · exact h1
          · split
            · exact h1
            · exact h1
      · exact ⟨by simp, rfl⟩
    · split
      · exact ⟨by simp, rfl⟩
      · exact ⟨by simp, rfl⟩

theorem prefix_append_left (s l m : List Str) (h : l <+: m) : s ++ l <+: s ++ m := by
  obtain ⟨t, ht⟩ := h
  exact ⟨t, by rw [← ht, List.append_assoc]⟩

/-- Directory-creation safety: with all prefixes of `A` present and a target
path below `A` that is free of `..` segments, `Path.mkdir(parents=True)` only
ever creates directories strictly inside `A`. -/
theorem mkdirPath_safe (cwd : List Str) (A : List Str) (hdd : noDD cwd) :
    ∀ (fuel : Nat) (fs : FS) (p : RawPath) (par exOk : Bool),
    noDD p.comps → A <+: (startOf cwd p ++ p.comps) → chainDir fs A = true →
    ∀ q ∈ (mkdirPath cwd fs p par exOk fuel).1.dirs,
      q ∈ fs.dirs ∨ (A <+: q ∧ A ≠ q) := by
  intro fuel
  induction fuel with
  | zero => intro fs p par exOk _ _ _ q hq; rw [mkdirPath] at hq; exact Or.inl hq
  | succ n ih =>
    intro fs p par exOk hpdd hA hchain q hq
    have hfull : resolveLex cwd p = startOf cwd p ++ p.comps := resolveLex_noDD cwd p hdd hpdd
    rw [mkdirPath] at hq
    split at hq
    · rename_i fs1 hOk
      obtain ⟨hshape, hnew⟩ := osMkdir_ok cwd fs fs1 p hdd hOk
      subst hshape
      rcases List.mem_cons.1 hq with h1 | h1
      · right
        constructor
        · rw [h1, hfull]; exact hA
        · intro hEq
          have hEq2 : A = resolveLex cwd p := hEq.trans h1
          rw [← hEq2] at hnew
          have ht := chainDir_isDir fs A A hchain List.prefix_rfl
          rw [hnew] at ht
          simp at ht
      · exact Or.inl h1
    · rename_i herr
      split at hq
      · rename_i hpar
        have hne : p.comps ≠ [] := by
          simp only [Bool.and_eq_true, Bool.not_eq_true'] at hpar
          simpa using hpar.2
        -- In the ENOENT case the target cannot be `A` itself: all of the
        -- dirname's prefixes would exist and the walk would succeed.
        have hAne : A ≠ startOf cwd p ++ p.comps := by
          intro hEq
          have hwalk : walkDir fs (startOf cwd p) p.comps.dropLast =
              .ok (startOf cwd p ++ p.comps.dropLast) := by
            refine walkDir_all_dirs fs _ _ (fun x hx => hpdd x (List.dropLast_subset _ hx)) ?_
            intro r hr hrne
            refine chainDir_isDir fs A _ hchain ?_
            rw [hEq]
            calc startOf cwd p ++ r <+: startOf cwd p ++ p.comps.dropLast :=
                  prefix_append_left _ _ _ hr
              _ <+: startOf cwd p ++ p.comps :=
                  prefix_append_left _ _ _ (List.dropLast_prefix _)
          unfold osMkdir at herr
          split at herr
          · simp at herr
          · split at herr
            · rename_i e hw
              rw [hwalk] at hw
              simp at hw
            · split at herr
              · simp at herr
              · split at herr
                · simp at herr
                · simp at herr
        have hAdrop : A <+: startOf cwd p ++ p.comps.dropLast := by
          rw [← List.dropLast_append_of_ne_nil _ hne]
          refine List.prefix_of_prefix_length_le hA (List.dropLast_prefix _) ?_
          have hlt : A.length < (startOf cwd p ++ p.comps).length :=
            Nat.lt_of_le_of_ne hA.length_le (fun hl => hAne (List.IsPrefix.eq_of_length hA hl))
          simp only [List.length_dropLast]
          omega
        split at hq
        · rename_i fs1 e hrec
          have := ih fs p.parent true true
            (fun x hx => hpdd x (List.dropLast_subset _ hx)) hAdrop hchain q
          rw [hrec] at this
          exact this hq
        · rename_i fs1 hrec
          have hrec1 := ih fs p.parent true true
            (fun x hx => hpdd x (List.dropLast_subset _ hx)) hAdrop hchain
          rw [hrec] at hrec1
          have hmono := mkdirPath_mono cwd n fs p.parent true true
          rw [hrec] at hmono
          have hchain1 : chainDir fs1 A = true := chainDir_mono fs fs1 A hmono.1 hchain
          split at hq
          · rename_i fs2 hOk2
            obtain ⟨hshape, hnew⟩ := osMkdir_ok cwd fs1 fs2 p hdd hOk2
            subst hshape
            rcases List.mem_cons.1 hq with h1 | h1
            · right
              constructor
              · rw [h1, hfull]; exact hA
              · intro hEq
                have hEq2 : A = resolveLex cwd p := hEq.trans h1
                rw [← hEq2] at hnew
                have ht := chainDir_isDir fs1 A A hchain1 List.prefix_rfl
                rw [hnew] at ht
                simp at ht
            · exact hrec1 q h1
          · exact hrec1 q hq
          · split at hq
            · exact hrec1 q hq
            · exact hrec1 q hq
      · exact Or.inl hq
    · split at hq
      · exact Or.inl hq
      · exact Or.inl hq

/-- The resolved target of a successful walk-plus-last, shared by `osMkdir`
and `openWrite`. -/
theorem walk_last_target (cwd : List Str) (fs : FS) (p : RawPath) (last : Str) (d : List Str)
    (hdd : noDD cwd) (hg : p.comps.getLast? = some last) (hlast : last ≠ ['.', '.'])
    (hw : walkDir fs (startOf cwd p) p.comps.dropLast = .ok d) :
    d ++ [last] = resolveLex cwd p := by
  have hne : p.comps ≠ [] := by
    intro hc; rw [hc] at hg; simp at hg
  have hlv : p.comps.getLast hne = last := by
    have h2 := List.getLast?_eq_getLast_of_ne_nil hne
    rw [h2] at hg
    exact Option.some.inj hg
  have hcomps : p.comps = p.comps.dropLast ++ [last] := by
    conv_lhs => rw [← List.dropLast_append_getLast hne]
    rw [hlv]
  rw [walkDir_ok_foldl fs _ _ _ hw, resolveLex_foldl cwd p hdd]
  conv_rhs => rw [hcomps]
  rw [List.foldl_append]
  simp [normStep, hlast]

/-- Successful `open(p, "wb")`: the resolved path is pushed onto the file
list; directories are untouched. -/
theorem openWrite_ok (cwd : List Str) (fs fs' : FS) (p : RawPath) (c : Str) (hdd : noDD cwd)
    (h : openWrite cwd fs p c = (fs', none)) :
    fs' = ⟨fs.dirs, (resolveLex cwd p, c) :: fs.files⟩ := by
  unfold openWrite at h
  split at h
  · simp at h
  · rename_i last hg
    split at h
    · simp at h
    · rename_i d hw
      split at h
      · simp at h
      · rename_i hlast
        split at h
        · simp at h
        · simp only [Prod.mk.injEq] at h
          rw [← h.1, walk_last_target cwd fs p last d hdd hg hlast hw]

theorem openWrite_err (cwd : List Str) (fs fs1 : FS) (p : RawPath) (c : Str) (e : OsErr)
    (h : openWrite cwd fs p c = (fs1, some e)) : fs1 = fs := by
  unfold openWrite at h
  split at h
  · simp at h; exact h.1.symm
  · split at h
    · simp at h; exact h.1.symm
    · split at h
      · simp at h; exact h.1.symm
      · split at h
        · simp at h; exact h.1.symm
        · simp at h

/-- Structure-level description of any `openWrite` outcome: directories are
untouched, and file entries are the old ones plus possibly the resolved
target. -/
theorem openWrite_shape (cwd : List Str) (fs : FS) (p : RawPath) (c : Str) (hdd : noDD cwd) :
    (openWrite cwd fs p c).1.dirs = fs.dirs ∧
    ∀ pr ∈ (openWrite cwd fs p c).1.files,
      pr ∈ fs.files ∨ pr.1 = resolveLex cwd p := by
  rcases hres : openWrite cwd fs p c with ⟨fs1, err⟩
  rcases err with _ | e
  · have := openWrite_ok cwd fs fs1 p c hdd hres
    subst this
    refine ⟨rfl, ?_⟩
    intro pr hpr
    rcases List.mem_cons.1 hpr with h1 | h1
    · right; rw [h1]
    · exact Or.inl h1
  · have h1 : fs1 = fs := openWrite_err cwd fs fs1 p c e hres
    subst h1
    exact ⟨rfl, fun pr hpr => Or.inl hpr⟩

/-! ## Extraction safety lemmas -/

theorem joinPath_pathComps (a b : RawPath) (ha : pathComps a.comps) (hb : pathComps b.comps) :
    pathComps (joinPath a b).comps := by
  unfold joinPath
  split
  · exact hb
  · intro c hc
    rcases List.mem_append.1 hc with h | h
    · exact ha c h
    · exact hb c h

theorem resolveLex_okComp (cwd : List Str) (p : RawPath)
    (hc : pathComps cwd) (hp : pathComps p.comps) : pathComps (resolveLex cwd p) := by
  intro c hmem
  have h1 := normComps_mem _ c hmem
  rcases List.mem_append.1 h1 with h2 | h2
  · split at h2
    · simp at h2
    · exact hc c h2
  · exact hp c h2

theorem resolveLex_resolved (cwd : List Str) (r : List Str) :
    resolveLex cwd ⟨true, normComps r⟩ = normComps r := by
  unfold resolveLex
  simp only [if_pos rfl, List.nil_append]
  exact normComps_of_noDD _ (noDD_normComps r)

theorem strictlyInside_dropLast (A r : List Str) (h : strictlyInside A r) :
    A <+: r.dropLast := by
  refine List.prefix_of_prefix_length_le h.1 (List.dropLast_prefix r) ?_
  have hlt : A.length < r.length :=
    Nat.lt_of_le_of_ne h.1.length_le (fun hl => h.2 (List.IsPrefix.eq_of_length h.1 hl))
  simp only [List.length_dropLast]
  omega

/-- One zip member only grows the tree, keeps every prefix of the root
directory intact, and everything it adds is strictly inside the (resolved)
destination. -/
theorem zipStep_safe (cwd : List Str) (dst : RawPath) (pre : Str) (fs : FS) (e : ZipEntry)
    (hcwd : pathComps cwd) (hdd : noDD cwd) (hdst : pathComps dst.comps)
    (hchain : chainDir fs (resolveLex cwd dst) = true) :
    fs.dirs ⊆ (zipStep cwd dst pre fs e).1.dirs ∧
    (∀ q ∈ (zipStep cwd dst pre fs e).1.dirs,
      q ∈ fs.dirs ∨ strictlyInside (resolveLex cwd dst) q) ∧
    (∀ pr ∈ (zipStep cwd dst pre fs e).1.files,
      pr ∈ fs.files ∨ strictlyInside (resolveLex cwd dst) pr.1) := by
  unfold zipStep
  split
  · exact ⟨fun x h => h, fun q hq => Or.inl hq, fun pr hpr => Or.inl hpr⟩
  · rename_i rel hrel
    set out : RawPath := zipOut cwd dst rel with hout
    by_cases hwithin : is_within cwd dst out = true
    · have houtComps : pathComps out.comps := by
        rw [hout]
        exact resolveLex_okComp cwd (joinPath dst (mkRawPath rel)) hcwd
          (joinPath_pathComps dst (mkRawPath rel) hdst (mkRawPath_pathComps rel))
      have hresout : resolveLex cwd out = out.comps := by
        rw [hout]
        exact resolveLex_resolved cwd _
      have hstrict : strictlyInside (resolveLex cwd dst) out.comps := by
        have := is_within_sound cwd dst out hcwd hdst houtComps hwithin
        rwa [hresout] at this
      have houtdd : noDD out.comps := by
        rw [hout]
        exact noDD_normComps _
      rw [if_neg (by simp [hwithin])]
      split
      · -- directory member
        rcases hmk : mkdirP cwd fs out true with ⟨fs1, err⟩
        have hsafe := mkdirPath_safe cwd (resolveLex cwd dst) hdd (out.comps.length + 1)
          fs out true true houtdd
          (by rw [show startOf cwd out = [] from rfl, List.nil_append]; exact hstrict.1) hchain
        have hmono := mkdirPath_mono cwd (out.comps.length + 1) fs out true true
        rw [show mkdirPath cwd fs out true true (out.comps.length + 1) = mkdirP cwd fs out true
          from rfl, hmk] at hsafe hmono
        rcases err with _ | er
        · exact ⟨hmono.1, fun q hq => (hsafe q hq).imp id (fun h => ⟨h.1, h.2⟩),
            fun pr hpr => Or.inl (hmono.2 ▸ hpr)⟩
        · exact ⟨hmono.1, fun q hq => (hsafe q hq).imp id (fun h => ⟨h.1, h.2⟩),
            fun pr hpr => Or.inl (hmono.2 ▸ hpr)⟩
      · -- file member
        have hparent : ∀ (fs1 : FS), mkdirP cwd fs out.parent true = (fs1, (mkdirP cwd fs out.parent true).2) →
            fs.dirs ⊆ fs1.dirs ∧ fs1.files = fs.files ∧
            (∀ q ∈ fs1.dirs, q ∈ fs.dirs ∨ strictlyInside (resolveLex cwd dst) q) := by
          intro fs1 hmk
          have hsafe := mkdirPath_safe cwd (resolveLex cwd dst) hdd (out.parent.comps.length + 1)
            fs out.parent true true
            (fun x hx => houtdd x (List.dropLast_subset _ hx))
            (by rw [show startOf cwd out.parent = [] from rfl, List.nil_append]
                exact strictlyInside_dropLast _ _ hstrict) hchain
          have hmono := mkdirPath_mono cwd (out.parent.comps.length + 1) fs out.parent true true
          rw [show mkdirPath cwd fs out.parent true true (out.parent.comps.length + 1) =
            mkdirP cwd fs out.parent true from rfl, hmk] at hsafe hmono
          exact ⟨hmono.1, hmono.2,
            fun q hq => (hsafe q hq).imp id (fun h => ⟨h.1, h.2⟩)⟩
        split
        · rename_i fs1 er hmk
          obtain ⟨hm1, hm2, hm3⟩ := hparent fs1 (by rw [hmk])
          exact ⟨hm1, hm3, fun pr hpr => Or.inl (hm2 ▸ hpr)⟩
        · rename_i fs1 hmk
          obtain ⟨hm1, hm2, hm3⟩ := hparent fs1 (by rw [hmk])
          have hrest : ∀ (fs2 : FS),
              openWrite cwd fs1 out e.content = (fs2, (openWrite cwd fs1 out e.content).2) →
              fs.dirs ⊆ fs2.dirs ∧
              (∀ q ∈ fs2.dirs, q ∈ fs.dirs ∨ strictlyInside (resolveLex cwd dst) q) ∧
              (∀ pr ∈ fs2.files, pr ∈ fs.files ∨ strictlyInside (resolveLex cwd dst) pr.1) := by
            intro fs2 hw
            have hshape := openWrite_shape cwd fs1 out e.content hdd
            rw [hw] at hshape
            refine ⟨?_, ?_, ?_⟩
            · rw [hshape.1]; exact hm1
            · rw [hshape.1]
              exact hm3
            · intro pr hpr
              rcases hshape.2 pr hpr with h1 | h1
              · exact Or.inl (hm2 ▸ h1)
              · right
                rw [h1, hresout]
                exact hstrict
          split
          · rename_i fs2 hw
            exact hrest fs2 (by rw [hw])
          · rename_i fs2 er2 hw
            exact hrest fs2 (by rw [hw])
    · rw [if_pos (by simp [Bool.not_eq_true] at hwithin ⊢; exact hwithin)]
      exact ⟨fun x h => h, fun q hq => Or.inl hq, fun pr hpr => Or.inl hpr⟩

theorem zipFold_safe (cwd : List Str) (dst : RawPath) (pre : Str)
    (hcwd : pathComps cwd) (hdd : noDD cwd) (hdst : pathComps dst.comps) :
    ∀ (entries : List ZipEntry) (fs : FS), chainDir fs (resolveLex cwd dst) = true →
    fs.dirs ⊆ (zipFold cwd dst pre fs entries).1.dirs ∧
    (∀ q ∈ (zipFold cwd dst pre fs entries).1.dirs,
      q ∈ fs.dirs ∨ strictlyInside (resolveLex cwd dst) q) ∧
    (∀ pr ∈ (zipFold cwd dst pre fs entries).1.files,
      pr ∈ fs.files ∨ strictlyInside (resolveLex cwd dst) pr.1) := by
  intro entries
  induction entries with
  | nil =>
    intro fs _
    exact ⟨fun x h => h, fun q hq => Or.inl hq, fun pr hpr => Or.inl hpr⟩
  | cons e rest ih =>
    intro fs hchain
    rw [zipFold]
    have hstep := zipStep_safe cwd dst pre fs e hcwd hdd hdst hchain
    split
    · rename_i fs1 hs
      rw [hs] at hstep
      have hchain1 : chainDir fs1 (resolveLex cwd dst) = true :=
        chainDir_mono fs fs1 _ hstep.1 hchain
      obtain ⟨ihsub, ihdirs, ihfiles⟩ := ih fs1 hchain1
      refine ⟨fun x hx => ihsub (hstep.1 hx), ?_, ?_⟩
      · intro q hq
        rcases ihdirs q hq with h1 | h1
        · exact hstep.2.1 q h1
        · exact Or.inr h1
      · intro pr hpr
        rcases ihfiles pr hpr with h1 | h1
        · exact hstep.2.2 pr h1
        · exact Or.inr h1
    · rename_i fs1 er hs
      rw [hs] at hstep
      exact hstep

/-- Zip extraction safety: everything it adds, directory or file, is strictly
inside the resolved destination (assuming the destination's prefix chain
exists, as `main` guarantees by creating the destination first). -/
theorem extract_zip_to_safe (cwd : List Str) (entries : List ZipEntry) (dst : RawPath) (fs : FS)
    (hcwd : pathComps cwd) (hdd : noDD cwd) (hdst : pathComps dst.comps)
    (hchain : chainDir fs (resolveLex cwd dst) = true) :
    (∀ q ∈ (extract_zip_to cwd entries dst fs).1.dirs,
      q ∈ fs.dirs ∨ strictlyInside (resolveLex cwd dst) q) ∧
    (∀ pr ∈ (extract_zip_to cwd entries dst fs).1.files,
      pr ∈ fs.files ∨ strictlyInside (resolveLex cwd dst) pr.1) := by
  have := zipFold_safe cwd dst (zipTopDir entries) hcwd hdd hdst entries fs hchain
  exact ⟨this.2.1, this.2.2⟩

/-- Tar extraction never writes a file outside the destination, `..` segments
or not: the containment check resolves exactly the path the later `open`
resolves. -/
theorem tarStep_files (cwd : List Str) (dst : RawPath) (pre : Str) (fs : FS) (m : TarEntry)
    (hcwd : pathComps cwd) (hdd : noDD cwd) (hdst : pathComps dst.comps) :
    ∀ pr ∈ (tarStep cwd dst pre fs m).1.files,
      pr ∈ fs.files ∨ strictlyInside (resolveLex cwd dst) pr.1 := by
  unfold tarStep
  split
  · exact fun pr hpr => Or.inl hpr
  · rename_i rel hrel
    set out := tarOut dst rel with hout
    by_cases hwithin : is_within cwd dst out = true
    · have houtComps : pathComps out.comps :=
        joinPath_pathComps dst (mkRawPath rel) hdst (mkRawPath_pathComps rel)
      have hstrict : strictlyInside (resolveLex cwd dst) (resolveLex cwd out) :=
        is_within_sound cwd dst out hcwd hdst houtComps hwithin
      rw [if_neg (by simp [hwithin])]
      split
      · exact fun pr hpr => Or.inl hpr
      · split
        · -- directory member
          split
          · rename_i fs1 hmk
            have hmono := mkdirPath_mono cwd (out.comps.length + 1) fs out true true
            rw [show mkdirPath cwd fs out true true (out.comps.length + 1) =
              mkdirP cwd fs out true from rfl, hmk] at hmono
            exact fun pr hpr => Or.inl (hmono.2 ▸ hpr)
          · rename_i fs1 er hmk
            have hmono := mkdirPath_mono cwd (out.comps.length + 1) fs out true true
            rw [show mkdirPath cwd fs out true true (out.comps.length + 1) =
              mkdirP cwd fs out true from rfl, hmk] at hmono
            exact fun pr hpr => Or.inl (hmono.2 ▸ hpr)
        · split
          · -- regular-file member
            split
            · rename_i fs1 er hmk
              have hmono := mkdirPath_mono cwd (out.parent.comps.length + 1) fs out.parent true true
              rw [show mkdirPath cwd fs out.parent true true (out.parent.comps.length + 1) =
                mkdirP cwd fs out.parent true from rfl, hmk] at hmono
              exact fun pr hpr => Or.inl (hmono.2 ▸ hpr)
            · rename_i fs1 hmk
              have hmono := mkdirPath_mono cwd (out.parent.comps.length + 1) fs out.parent true true
              rw [show mkdirPath cwd fs out.parent true true (out.parent.comps.length + 1) =
                mkdirP cwd fs out.parent true from rfl, hmk] at hmono
              split
              · exact fun pr hpr => Or.inl (hmono.2 ▸ hpr)
              · rename_i c hc
                have hwrite : ∀ (fs2 : FS),
                    openWrite cwd fs1 out c = (fs2, (openWrite cwd fs1 out c).2) →
                    ∀ pr ∈ fs2.files, pr ∈ fs.files ∨ strictlyInside (resolveLex cwd dst) pr.1 := by
                  intro fs2 hw pr hpr
                  have hshape := openWrite_shape cwd fs1 out c hdd
                  rw [hw] at hshape
                  rcases hshape.2 pr hpr with h1 | h1
                  · exact Or.inl (hmono.2 ▸ h1)
                  · right
                    rw [h1]
                    exact hstrict
                split
                · rename_i fs2 hw
                  exact hwrite fs2 (by rw [hw])
                · rename_i fs2 er2 hw
                  exact hwrite fs2 (by rw [hw])
          · exact fun pr hpr => Or.inl hpr
    · rw [if_pos (by simp [Bool.not_eq_true] at hwithin ⊢; exact hwithin)]
      exact fun pr hpr => Or.inl hpr

theorem tarFold_files (cwd : List Str) (dst : RawPath) (pre : Str)
    (hcwd : pathComps cwd) (hdd : noDD cwd) (hdst : pathComps dst.comps) :
    ∀ (entries : List TarEntry) (fs : FS),
    ∀ pr ∈ (tarFold cwd dst pre fs entries).1.files,
      pr ∈ fs.files ∨ strictlyInside (resolveLex cwd dst) pr.1 := by
  intro entries
  induction entries with
  | nil => exact fun fs pr hpr => Or.inl hpr
  | cons m rest ih =>
    intro fs
    rw [tarFold]
    have hstep := tarStep_files cwd dst pre fs m hcwd hdd hdst
    split
    · rename_i fs1 hs
      rw [hs] at hstep
      intro pr hpr
      rcases ih fs1 pr hpr with h1 | h1
      · exact hstep pr h1
      · exact Or.inr h1
    · rename_i fs1 er hs
      rw [hs] at hstep
      exact hstep

theorem extract_tar_to_files (cwd : List Str) (entries : List TarEntry) (dst : RawPath) (fs : FS)
    (hcwd : pathComps cwd) (hdd : noDD cwd) (hdst : pathComps dst.comps) :
    ∀ pr ∈ (extract_tar_to cwd entries dst fs).1.files,
      pr ∈ fs.files ∨ strictlyInside (resolveLex cwd dst) pr.1 := by
  unfold extract_tar_to
  split
  · exact fun pr hpr => Or.inl hpr
  · exact tarFold_files cwd dst _ hcwd hdd hdst entries fs

/-- A tar member whose containment check fails is skipped with no state
change and no error. -/
theorem tarStep_skip (cwd : List Str) (dst : RawPath) (pre : Str) (fs : FS) (m : TarEntry)
    (rel : Str) (hrel : tarRel pre m = some rel)
    (hw : is_within cwd dst (tarOut dst rel) = false) :
    tarStep cwd dst pre fs m = (fs, none) := by
  unfold tarStep
  rw [hrel]
  simp only [hw, Bool.not_false, if_pos]

/-- A zip member whose containment check fails is skipped with no state
change and no error. -/
theorem zipStep_skip (cwd : List Str) (dst : RawPath) (pre : Str) (fs : FS) (e : ZipEntry)
    (rel : Str) (hrel : zipRel pre e.name = some rel)
    (hw : is_within cwd dst (zipOut cwd dst rel) = false) :
    zipStep cwd dst pre fs e = (fs, none) := by
  unfold zipStep
  rw [hrel]
  simp only [hw, Bool.not_false, if_pos]

/-- State growth: nothing in the model ever deletes a directory or a file
entry during extraction. -/
def FS.sub (a b : FS) : Prop := a.dirs ⊆ b.dirs ∧ a.files ⊆ b.files

theorem FS.sub.refl (a : FS) : FS.sub a a := ⟨fun x h => h, fun x h => h⟩

theorem FS.sub.trans {a b c : FS} (h1 : FS.sub a b) (h2 : FS.sub b c) : FS.sub a c :=
  ⟨fun x h => h2.1 (h1.1 h), fun x h => h2.2 (h1.2 h)⟩

theorem mkdirP_sub (cwd : List Str) (fs : FS) (p : RawPath) (exOk : Bool) :
    FS.sub fs (mkdirP cwd fs p exOk).1 := by
  have h := mkdirPath_mono cwd (p.comps.length + 1) fs p true exOk
  unfold mkdirP
  exact ⟨h.1, by rw [h.2]; exact fun x hx => hx⟩

theorem openWrite_sub (cwd : List Str) (fs : FS) (p : RawPath) (c : Str) :
    FS.sub fs (openWrite cwd fs p c).1 := by
  unfold openWrite
  split
  · exact FS.sub.refl fs
  · split
    · exact FS.sub.refl fs
    · split
      · exact FS.sub.refl fs
      · split
        · exact FS.sub.refl fs
        · exact ⟨fun x h => h, fun x h => List.mem_cons_of_mem _ h⟩

theorem tarStep_sub (cwd : List Str) (dst : RawPath) (pre : Str) (fs : FS) (m : TarEntry) :
    FS.sub fs (tarStep cwd dst pre fs m).1 := by
  unfold tarStep
  split
  · exact FS.sub.refl fs
  · rename_i rel hrel
    split
    · exact FS.sub.refl fs
    · split
      · exact FS.sub.refl fs
      · split
        · split
          · rename_i fs1 hmk
            have := mkdirP_sub cwd fs (tarOut dst rel) true
            rw [hmk] at this
            exact this
          · rename_i fs1 er hmk
            have := mkdirP_sub cwd fs (tarOut dst rel) true
            rw [hmk] at this
            exact this
        · split
          · split
            · rename_i fs1 er hmk
              have := mkdirP_sub cwd fs (tarOut dst rel).parent true
              rw [hmk] at this
              exact this
            · rename_i fs1 hmk
              have h1 := mkdirP_sub cwd fs (tarOut dst rel).parent true
              rw [hmk] at h1
              split
              · exact h1
              · rename_i c hc
                have h2 := openWrite_sub cwd fs1 (tarOut dst rel) c
                split
                · rename_i fs2 hw
                  rw [hw] at h2
                  exact h1.trans h2
                · rename_i fs2 er2 hw
                  rw [hw] at h2
                  exact h1.trans h2
          · exact FS.sub.refl fs

theorem zipStep_sub (cwd : List Str) (dst : RawPath) (pre : Str) (fs : FS) (e : ZipEntry) :
    FS.sub fs (zipStep cwd dst pre fs e).1 := by
  unfold zipStep
  split
  · exact FS.sub.refl fs
  · rename_i rel hrel
    split
    · exact FS.sub.refl fs
    · split
      · split
        · rename_i fs1 hmk
          have := mkdirP_sub cwd fs (zipOut cwd dst rel) true
          rw [hmk] at this
          exact this
        · rename_i fs1 er hmk
          have := mkdirP_sub cwd fs (zipOut cwd dst rel) true
          rw [hmk] at this
          exact this
      · split
        · rename_i fs1 er hmk
          have := mkdirP_sub cwd fs (zipOut cwd dst rel).parent true
          rw [hmk] at this
          exact this
        · rename_i fs1 hmk
          have h1 := mkdirP_sub cwd fs (zipOut cwd dst rel).parent true
          rw [hmk] at h1
          have h2 := openWrite_sub cwd fs1 (zipOut cwd dst rel) e.content
          split
          · rename_i fs2 hw
            rw [hw] at h2
            exact h1.trans h2
          · rename_i fs2 er2 hw
            rw [hw] at h2
            exact h1.trans h2

theorem tarFold_sub (cwd : List Str) (dst : RawPath) (pre : Str) :
    ∀ (entries : List TarEntry) (fs : FS), FS.sub fs (tarFold cwd dst pre fs entries).1 := by
  intro entries
  induction entries with
  | nil => exact fun fs => FS.sub.refl fs
  | cons m rest ih =>
    intro fs
    rw [tarFold]
    have hstep := tarStep_sub cwd dst pre fs m
    split
    · rename_i fs1 hs
      rw [hs] at hstep
      exact hstep.trans (ih fs1)
    · rename_i fs1 er hs
      rw [hs] at hstep
      exact hstep

theorem zipFold_sub (cwd : List Str) (dst : RawPath) (pre : Str) :
    ∀ (entries : List ZipEntry) (fs : FS), FS.sub fs (zipFold cwd dst pre fs entries).1 := by
  intro entries
  induction entries with
  | nil => exact fun fs => FS.sub.refl fs
  | cons e rest ih =>
    intro fs
    rw [zipFold]
    have hstep := zipStep_sub cwd dst pre fs e
    split
    · rename_i fs1 hs
      rw [hs] at hstep
      exact hstep.trans (ih fs1)
    · rename_i fs1 er hs
      rw [hs] at hstep
      exact hstep

theorem extract_tar_to_sub (cwd : List Str) (entries : List TarEntry) (dst : RawPath) (fs : FS) :
    FS.sub fs (extract_tar_to cwd entries dst fs).1 := by
  unfold extract_tar_to
  split
  · exact FS.sub.refl fs
  · exact tarFold_sub cwd dst _ entries fs

theorem extract_zip_to_sub (cwd : List Str) (entries : List ZipEntry) (dst : RawPath) (fs : FS) :
    FS.sub fs (extract_zip_to cwd entries dst fs).1 := by
  unfold extract_zip_to
  exact zipFold_sub cwd dst _ entries fs

theorem snapshotGo_sub (attempt : Tier → FS → FS × Except Str Unit)
    (hmono : ∀ t fs, FS.sub fs (attempt t fs).1) :
    ∀ (rest : List Tier) (fs : FS) (errs : List Str),
    FS.sub fs (snapshotGo attempt fs rest errs).1 := by
  intro rest
  induction rest with
  | nil => exact fun fs errs => FS.sub.refl fs
  | cons t r ih =>
    intro fs errs
    rw [snapshotGo]
    have hstep := hmono t fs
    split
    · rename_i fs1 u hs
      rw [hs] at hstep
      exact hstep
    · rename_i fs1 e hs
      rw [hs] at hstep
      exact hstep.trans (ih fs1 _)

/-! ## Claim theorems -/

/-- Claim C1, amended.  For both formats, an entry whose resolved output path
is not strictly inside the resolved destination root is skipped without
failing.  Tar extraction never writes a regular file outside the root (even
for `..`-laden names: the containment check resolves exactly what the write
resolves), and zip extraction (whose output paths are pre-resolved) creates
no directory and no file outside the root, provided the destination's
directory chain exists.  The original claim's blanket "no extraction step
ever creates a path outside the root" does not survive the tar
parent-directory creation shown in `claim1_counterexample`. -/
theorem claim1_traversal_guard (cwd : List Str) (dst : RawPath)
    (hcwd : pathComps cwd) (hdd : noDD cwd) (hdst : pathComps dst.comps) :
    (∀ (pre : Str) (fs : FS) (m : TarEntry) (rel : Str),
       tarRel pre m = some rel →
       ¬ strictlyInside (resolveLex cwd dst) (resolveLex cwd (tarOut dst rel)) →
       tarStep cwd dst pre fs m = (fs, none)) ∧
    (∀ (pre : Str) (fs : FS) (e : ZipEntry) (rel : Str),
       zipRel pre e.name = some rel →
       ¬ strictlyInside (resolveLex cwd dst) (resolveLex cwd (zipOut cwd dst rel)) →
       zipStep cwd dst pre fs e = (fs, none)) ∧
    (∀ (entries : List TarEntry) (fs : FS),
       ∀ pr ∈ (extract_tar_to cwd entries dst fs).1.files,
         pr ∈ fs.files ∨ strictlyInside (resolveLex cwd dst) pr.1) ∧
    (∀ (entries : List ZipEntry) (fs : FS), chainDir fs (resolveLex cwd dst) = true →
       (∀ q ∈ (extract_zip_to cwd entries dst fs).1.dirs,
         q ∈ fs.dirs ∨ strictlyInside (resolveLex cwd dst) q) ∧
       (∀ pr ∈ (extract_zip_to cwd entries dst fs).1.files,
         pr ∈ fs.files ∨ strictlyInside (resolveLex cwd dst) pr.1)) := by
  refine ⟨?_, ?_, ?_, ?_⟩
  · intro pre fs m rel hrel hnot
    refine tarStep_skip cwd dst pre fs m rel hrel ?_
    cases hiw : is_within cwd dst (tarOut dst rel) with
    | false => rfl
    | true =>
      exact absurd (is_within_sound cwd dst (tarOut dst rel) hcwd hdst
        (joinPath_pathComps dst (mkRawPath rel) hdst (mkRawPath_pathComps rel)) hiw) hnot
  · intro pre fs e rel hrel hnot
    refine zipStep_skip cwd dst pre fs e rel hrel ?_
    cases hiw : is_within cwd dst (zipOut cwd dst rel) with
    | false => rfl
    | true =>
      exact absurd (is_within_sound cwd dst (zipOut cwd dst rel) hcwd hdst
        (resolveLex_okComp cwd (joinPath dst (mkRawPath rel)) hcwd
          (joinPath_pathComps dst (mkRawPath rel) hdst (mkRawPath_pathComps rel))) hiw) hnot
  · exact fun entries fs => extract_tar_to_files cwd entries dst fs hcwd hdd hdst
  · exact fun entries fs hchain => extract_zip_to_safe cwd entries dst fs hcwd hdd hdst hchain

/-- Claim C1, counterexample to the original claim.  A tar entry named
`repo/../e/../d/x` resolves to `/d/x`, strictly inside the destination `/d`,
so the containment check passes; but `out.parent.mkdir(parents=True)` on the
unresolved `/d/../e/../d` creates the directory `/e` — an extraction step
creating a filesystem path outside the destination root, with no error
raised. -/
theorem claim1_counterexample :
    extract_tar_to []
        [⟨"repo/".toList, .dir, 0o755, none⟩,
         ⟨"repo/../e/../d/x".toList, .file, 0o644, some "hi".toList⟩]
        ⟨true, ["d".toList]⟩ ⟨[["d".toList]], []⟩ =
      (⟨[["e".toList], ["d".toList]], [(["d".toList, "x".toList], "hi".toList)]⟩, none) ∧
    ¬ strictlyInside (resolveLex [] ⟨true, ["d".toList]⟩) ["e".toList] ∧
    ["e".toList] ∉ (⟨[["d".toList]], []⟩ : FS).dirs := by
  refine ⟨by decide, by decide, by decide⟩

/-- Claim C1, witness: the amended theorem applied at a concrete traversal
attempt (`repo/../../etc/passwd`) and at a concrete zip archive. -/
theorem claim1_traversal_guard_witness :
    tarStep [] ⟨true, ["d".toList]⟩ "repo/".toList ⟨[["d".toList]], []⟩
        ⟨"repo/../../etc/passwd".toList, .file, 0o644, some "x".toList⟩ =
      (⟨[["d".toList]], []⟩, none) ∧
    (∀ pr ∈ (extract_zip_to [] [⟨"repo/secret".toList, 0, "s".toList⟩]
        ⟨true, ["d".toList]⟩ ⟨[["d".toList]], []⟩).1.files,
      pr ∈ (⟨[["d".toList]], []⟩ : FS).files ∨
        strictlyInside (resolveLex [] ⟨true, ["d".toList]⟩) pr.1) := by
  have h := claim1_traversal_guard [] ⟨true, ["d".toList]⟩ (by decide) (by decide) (by decide)
  constructor
  · exact h.1 "repo/".toList ⟨[["d".toList]], []⟩ _ "../../etc/passwd".toList
      (by decide) (by decide)
  · exact (h.2.2.2 [⟨"repo/secret".toList, 0, "s".toList⟩] ⟨[["d".toList]], []⟩ (by decide)).2

/-- Claim C2, amended.  Tar extraction skips symbolic-link and hard-link
members entirely: the member produces no state change and no error.  Neither
extractor can create a filesystem link (the model has no link operation
because the source never calls one).  However, zip extraction does not
inspect link metadata at all, so a zip member recording a symbolic link is
materialized as a regular file (see `claim2_counterexample`). -/
theorem claim2_links_never_materialized (cwd : List Str) (dst : RawPath) (pre : Str)
    (fs : FS) (m : TarEntry) (hlink : (m.issym || m.islnk) = true) :
    tarStep cwd dst pre fs m = (fs, none) := by
  unfold tarStep
  split
  · rfl
  · rename_i rel hrel
    by_cases hiw : is_within cwd dst (tarOut dst rel) = true
    · rw [if_neg (by simp [hiw]), if_pos hlink]
    · rw [if_pos (by simp [Bool.not_eq_true] at hiw ⊢; exact hiw)]

/-- Claim C2, counterexample to the original claim.  A zip member whose
`external_attr` upper bits record `S_IFLNK` (a symbolic link) is extracted
as a regular file in the destination: link entries in the zip format are
not skipped and do produce regular files. -/
theorem claim2_counterexample :
    ZipEntry.isSymlinkEntry ⟨"repo/link".toList, 0xA1FF0000, "target".toList⟩ = true ∧
    extract_zip_to []
        [⟨"repo/".toList, 0x41FF0000, []⟩,
         ⟨"repo/link".toList, 0xA1FF0000, "target".toList⟩]
        ⟨true, ["d".toList]⟩ ⟨[["d".toList]], []⟩ =
      (⟨[["d".toList]], [(["d".toList, "link".toList], "target".toList)]⟩, none) := by
  refine ⟨by decide, by decide⟩

/-- Claim C2, witness: a symlink and a hard-link tar member are both skipped
unchanged. -/
theorem claim2_links_never_materialized_witness :
    tarStep [] ⟨true, ["d".toList]⟩ "repo/".toList ⟨[["d".toList]], []⟩
        ⟨"repo/sym".toList, .sym, 0o777, none⟩ = (⟨[["d".toList]], []⟩, none) ∧
    tarStep [] ⟨true, ["d".toList]⟩ "repo/".toList ⟨[["d".toList]], []⟩
        ⟨"repo/hard".toList, .lnk, 0o644, none⟩ = (⟨[["d".toList]], []⟩, none) :=
  ⟨claim2_links_never_materialized [] ⟨true, ["d".toList]⟩ "repo/".toList ⟨[["d".toList]], []⟩
      ⟨"repo/sym".toList, .sym, 0o777, none⟩ (by decide),
   claim2_links_never_materialized [] ⟨true, ["d".toList]⟩ "repo/".toList ⟨[["d".toList]], []⟩
      ⟨"repo/hard".toList, .lnk, 0o644, none⟩ (by decide)⟩

/-- Claim C10.  The cascade performs no cleanup between tiers: both
extractors only ever add directory and file entries, and whatever state the
first tier leaves behind — even when it failed — is contained in the state
every later tier starts from and in the final state of the whole cascade. -/
theorem claim10_no_rollback :
    (∀ (cwd : List Str) (entries : List TarEntry) (dst : RawPath) (fs : FS),
       FS.sub fs (extract_tar_to cwd entries dst fs).1) ∧
    (∀ (cwd : List Str) (entries : List ZipEntry) (dst : RawPath) (fs : FS),
       FS.sub fs (extract_zip_to cwd entries dst fs).1) ∧
    (∀ (attempt : Tier → FS → FS × Except Str Unit),
       (∀ t fs, FS.sub fs (attempt t fs).1) → ∀ fs0 : FS,
       FS.sub (attempt ⟨.targz, .streamed, .sha⟩ fs0).1 (download_snapshot attempt fs0).1) := by
  refine ⟨extract_tar_to_sub, extract_zip_to_sub, ?_⟩
  intro attempt hmono fs0
  unfold download_snapshot tierOrder
  rw [snapshotGo]
  split
  · rename_i fs1 u hs
    rw [hs]
    exact FS.sub.refl fs1
  · rename_i fs1 e hs
    rw [hs]
    exact snapshotGo_sub attempt hmono _ fs1 _

/-- A concrete always-failing transport that writes one directory per try,
for the C10 witness. -/
def writingFailAttempt : Tier → FS → FS × Except Str Unit :=
  fun _ fs => (⟨["w".toList] :: fs.dirs, fs.files⟩, Except.error "boom".toList)

/-- Claim C10, witness: a concrete always-failing transport preserves the
first tier's writes through to the cascade's final state. -/
theorem claim10_no_rollback_witness :
    FS.sub ((writingFailAttempt ⟨.targz, .streamed, .sha⟩ ⟨[], []⟩).1)
      (download_snapshot writingFailAttempt ⟨[], []⟩).1 :=
  claim10_no_rollback.2.2 writingFailAttempt
    (fun _ fs => ⟨fun x hx => List.mem_cons_of_mem _ hx, fun x hx => hx⟩) ⟨[], []⟩

/-! ## Cascade lemmas for C3 and C5 -/

theorem snapshotGo_stops (attempt : Tier → FS → FS × Except Str Unit) :
    ∀ (rest : List Tier) (k : Nat) (fs : FS) (errs : List Str),
    k < rest.length →
    (∀ t ∈ rest.take k, ∀ fs1, ∃ e, (attempt t fs1).2 = .error e) →
    (∀ t, rest.get? k = some t → ∀ fs1, (attempt t fs1).2 = .ok ()) →
    (snapshotGo attempt fs rest errs).2.1 = rest.take (k + 1) ∧
    (snapshotGo attempt fs rest errs).2.2 = .ok () := by
  intro rest
  induction rest with
  | nil => intro k fs errs hk; simp at hk
  | cons t r ih =>
    intro k fs errs hk hfail hsucc
    cases k with
    | zero =>
      have hok := hsucc t rfl fs
      rw [snapshotGo]
      rcases hA : attempt t fs with ⟨fs1, res⟩
      rw [hA] at hok
      simp only at hok
      rw [hok]
      refine ⟨?_, rfl⟩
      show [t] = List.take (0 + 1) (t :: r)
      simp
    | succ k1 =>
      obtain ⟨e, he⟩ := hfail t (by simp) fs
      rw [snapshotGo]
      rcases hA : attempt t fs with ⟨fs1, res⟩
      rw [hA] at he
      simp only at he
      rw [he]
      have hrec := ih k1 fs1 (errs ++ [tierLabel t ++ ": ".toList ++ e])
        (by simpa using hk)
        (fun t1 ht1 fs2 => hfail t1 (by simp; exact Or.inr ht1) fs2)
        (fun t1 ht1 fs2 => hsucc t1 (by simpa using ht1) fs2)
      refine ⟨?_, ?_⟩
      · show t :: (snapshotGo attempt fs1 r
            (errs ++ [tierLabel t ++ ": ".toList ++ e])).2.1 =
          List.take (k1 + 1 + 1) (t :: r)
        rw [hrec.1]
        simp
      · show (snapshotGo attempt fs1 r
            (errs ++ [tierLabel t ++ ": ".toList ++ e])).2.2 = .ok ()
        exact hrec.2

theorem snapshotGo_all_fail (attempt : Tier → FS → FS × Except Str Unit)
    (detail : Tier → Str)
    (hfail : ∀ t fs1, (attempt t fs1).2 = .error (detail t)) :
    ∀ (rest : List Tier) (fs : FS) (errs : List Str),
    (snapshotGo attempt fs rest errs).2.1 = rest ∧
    (snapshotGo attempt fs rest errs).2.2 = .error (snapshotFailHead ++
      List.intercalate "; ".toList
        (errs ++ rest.map (fun t => tierLabel t ++ ": ".toList ++ detail t))) := by
  intro rest
  induction rest with
  | nil => intro fs errs; rw [snapshotGo]; simp
  | cons t r ih =>
    intro fs errs
    rw [snapshotGo]
    have he := hfail t fs
    rcases hA : attempt t fs with ⟨fs1, res⟩
    rw [hA] at he
    simp only at he
    rw [he]
    have hrec := ih fs1 (errs ++ [tierLabel t ++ ": ".toList ++ detail t])
    refine ⟨?_, ?_⟩
    · show t :: (snapshotGo attempt fs1 r
          (errs ++ [tierLabel t ++ ": ".toList ++ detail t])).2.1 = t :: r
      rw [hrec.1]
    · show (snapshotGo attempt fs1 r
          (errs ++ [tierLabel t ++ ": ".toList ++ detail t])).2.2 = _
      rw [hrec.2]
      simp

theorem snapshotGo_some_ok (attempt : Tier → FS → FS × Except Str Unit) :
    ∀ (rest : List Tier) (fs : FS) (errs : List Str),
    (∃ t ∈ rest, ∀ fs1, (attempt t fs1).2 = .ok ()) →
    (snapshotGo attempt fs rest errs).2.2 = .ok () := by
  intro rest
  induction rest with
  | nil => intro fs errs h; simp at h
  | cons t r ih =>
    intro fs errs hex
    rw [snapshotGo]
    rcases hA : attempt t fs with ⟨fs1, res⟩
    rcases res with e | u
    · obtain ⟨t1, ht1, hok⟩ := hex
      rcases List.mem_cons.1 ht1 with h1 | h1
      · subst h1
        have := hok fs
        rw [hA] at this
        simp at this
      · show (snapshotGo attempt fs1 r
            (errs ++ [tierLabel t ++ ": ".toList ++ e])).2.2 = .ok ()
        exact ih fs1 _ ⟨t1, h1, hok⟩
    · rfl

/-- Claim C3.  The cascade tries the six tiers in the fixed order — streamed
tar at the commit id, streamed tar at the branch, buffered tar at the commit
id, buffered tar at the branch, buffered zip at the commit id, buffered zip
at the branch — and stops at the first tier that completes without error:
when the first k tiers fail and tier k+1 (0-indexed k) succeeds, exactly the
tiers 0..k are attempted, in order, and none beyond. -/
theorem claim3_cascade_order (attempt : Tier → FS → FS × Except Str Unit)
    (k : Nat) (fs0 : FS) (hk : k < tierOrder.length)
    (hfail : ∀ t ∈ tierOrder.take k, ∀ fs1, ∃ e, (attempt t fs1).2 = .error e)
    (hsucc : ∀ t, tierOrder.get? k = some t → ∀ fs1, (attempt t fs1).2 = .ok ()) :
    (download_snapshot attempt fs0).2.1 = tierOrder.take (k + 1) ∧
    (download_snapshot attempt fs0).2.2 = .ok () :=
  snapshotGo_stops attempt tierOrder k fs0 [] hk hfail hsucc

/-- A transport where exactly the third tier (buffered tar at the commit id)
succeeds, for the C3 witness. -/
def failTwiceAttempt : Tier → FS → FS × Except Str Unit :=
  fun t fs =>
    (fs, if t = ⟨.targz, .buffered, .sha⟩ then Except.ok () else Except.error "e".toList)

/-- Claim C3, witness: with tiers 1 and 2 failing and tier 3 succeeding,
exactly the first three tiers are attempted. -/
theorem claim3_cascade_order_witness :
    (download_snapshot failTwiceAttempt ⟨[], []⟩).2.1 = tierOrder.take 3 ∧
    (download_snapshot failTwiceAttempt ⟨[], []⟩).2.2 = .ok () := by
  refine claim3_cascade_order failTwiceAttempt 2 ⟨[], []⟩ (by decide) ?_ ?_
  · intro t ht fs1
    have h2 : t = ⟨.targz, .streamed, .sha⟩ ∨ t = ⟨.targz, .streamed, .branch⟩ := by
      simpa [tierOrder] using ht
    rcases h2 with h | h <;> subst h <;> exact ⟨"e".toList, rfl⟩
  · intro t ht fs1
    have h2 : (⟨.targz, .buffered, .sha⟩ : Tier) = t := by
      simpa [tierOrder] using ht
    subst h2
    rfl

/-- Claim C5.  The cascade fails (with the `SnapshotUnavailable` runtime
error) exactly when all six tiers fail, and the raised message is the fixed
header followed by the `"; "`-joined per-tier details, one `label: detail`
entry for each of the six attempted tiers in order; conversely the presence
of one reliably succeeding tier makes the cascade succeed. -/
theorem claim5_snapshot_unavailable (attempt : Tier → FS → FS × Except Str Unit) (fs0 : FS) :
    (∀ (detail : Tier → Str), (∀ t fs1, (attempt t fs1).2 = .error (detail t)) →
       (download_snapshot attempt fs0).2.1 = tierOrder ∧
       (download_snapshot attempt fs0).2.2 = .error (snapshotFailHead ++
         List.intercalate "; ".toList
           (tierOrder.map (fun t => tierLabel t ++ ": ".toList ++ detail t)))) ∧
    ((∃ t ∈ tierOrder, ∀ fs1, (attempt t fs1).2 = .ok ()) →
       (download_snapshot attempt fs0).2.2 = .ok ()) := by
  constructor
  · intro detail h
    have hall := snapshotGo_all_fail attempt detail h tierOrder fs0 []
    unfold download_snapshot
    exact ⟨hall.1, by rw [hall.2]; simp⟩
  · exact snapshotGo_some_ok attempt tierOrder fs0 []

/-- A transport where every tier fails with the same detail, for the C5
witness. -/
def allFailAttempt : Tier → FS → FS × Except Str Unit :=
  fun _ fs => (fs, Except.error "boom".toList)

/-- Claim C5, witness: all six tiers fail, all six are attempted, and the
error carries all six labelled details. -/
theorem claim5_snapshot_unavailable_witness :
    (download_snapshot allFailAttempt ⟨[], []⟩).2.1 = tierOrder ∧
    (download_snapshot allFailAttempt ⟨[], []⟩).2.2 = .error (snapshotFailHead ++
      List.intercalate "; ".toList
        (tierOrder.map (fun t => tierLabel t ++ ": ".toList ++ "boom".toList))) :=
  (claim5_snapshot_unavailable allFailAttempt ⟨[], []⟩).1
    (fun _ => "boom".toList) (fun _ _ => rfl)

/-! ## Resolver lemmas for C6 -/

theorem firstProbe_none (f : Str → Option Str) :
    ∀ (l : List Str), firstProbe f l = none ↔ ∀ b ∈ l, f b = none := by
  intro l
  induction l with
  | nil => simp [firstProbe]
  | cons b rest ih =>
    rw [firstProbe]
    rcases hb : f b with _ | sha
    · simp only [List.mem_cons]
      constructor
      · intro h c hc
        rcases hc with h1 | h1
        · rw [h1]; exact hb
        · exact (ih.1 h) c h1
      · intro h
        exact ih.2 (fun c hc => h c (Or.inr hc))
    · simp only [List.mem_cons]
      constructor
      · intro h; simp at h
      · intro h
        rw [h b (Or.inl rfl)] at hb
        simp at hb

theorem firstProbe_some (f : Str → Option Str) :
    ∀ (l : List Str) (b s : Str), firstProbe f l = some (b, s) → b ∈ l ∧ f b = some s := by
  intro l
  induction l with
  | nil => intro b s h; simp [firstProbe] at h
  | cons c rest ih =>
    intro b s h
    rw [firstProbe] at h
    rcases hc : f c with _ | sha
    · rw [hc] at h
      have := ih b s h
      exact ⟨List.mem_cons_of_mem c this.1, this.2⟩
    · rw [hc] at h
      simp only [Option.some.injEq, Prod.mk.injEq] at h
      obtain ⟨hcb, hss⟩ := h
      subst hcb
      subst hss
      exact ⟨List.mem_cons_self _ _, hc⟩

/-- Claim C6, amended.  `_guess_default_sha_html` runs two full passes over
the candidate branches (caller hint if any, then `main`, then `master`):
first every branch's commit-history page, and only if that entire pass finds
no match, every branch's tree page; within a pass the first branch with a
match wins, and resolution fails exactly when no candidate branch matches on
either page.  (The original claim's per-branch interleaving — commit page
then tree page for each branch in turn — is refuted by
`claim6_counterexample`.) -/
theorem claim6_html_resolution_order (probeCommits probeTree : Str → Option Str)
    (hint : Option Str) :
    (guess_default_sha_html probeCommits probeTree hint = .error () ↔
       ∀ b ∈ candidateBranches hint, probeCommits b = none ∧ probeTree b = none) ∧
    (∀ r, firstProbe probeCommits (candidateBranches hint) = some r →
       guess_default_sha_html probeCommits probeTree hint = .ok r) ∧
    (firstProbe probeCommits (candidateBranches hint) = none →
       ∀ r, firstProbe probeTree (candidateBranches hint) = some r →
       guess_default_sha_html probeCommits probeTree hint = .ok r) ∧
    (∀ (f : Str → Option Str) (b : Str) (rest : List Str) (sha : Str),
       f b = some sha → firstProbe f (b :: rest) = some (b, sha)) ∧
    (∀ (f : Str → Option Str) (b : Str) (rest : List Str),
       f b = none → firstProbe f (b :: rest) = firstProbe f rest) := by
  refine ⟨?_, ?_, ?_, ?_, ?_⟩
  · unfold guess_default_sha_html
    rcases h1 : firstProbe probeCommits (candidateBranches hint) with _ | r
    · rcases h2 : firstProbe probeTree (candidateBranches hint) with _ | r
      · simp only []
        constructor
        · intro _ b hb
          exact ⟨((firstProbe_none probeCommits _).1 h1) b hb,
            ((firstProbe_none probeTree _).1 h2) b hb⟩
        · intro _; trivial
      · simp only []
        constructor
        · intro h; simp at h
        · intro h
          obtain ⟨rb, rs⟩ := r
          obtain ⟨hb, hsome⟩ := firstProbe_some probeTree _ rb rs h2
          rw [(h rb hb).2] at hsome
          simp at hsome
    · simp only []
      constructor
      · intro h; simp at h
      · intro h
        obtain ⟨rb, rs⟩ := r
        obtain ⟨hb, hsome⟩ := firstProbe_some probeCommits _ rb rs h1
        rw [(h rb hb).1] at hsome
        simp at hsome
  · intro r hr
    unfold guess_default_sha_html
    rw [hr]
  · intro hnone r hr
    unfold guess_default_sha_html
    rw [hnone, hr]
  · intro f b rest sha hb
    rw [firstProbe, hb]
  · intro f b rest hb
    rw [firstProbe, hb]

/-- Commit-history page oracle for the C6 counterexample: only `master`
matches (a full 40-hex id). -/
def c6CommitsProbe : Str → Option Str :=
  fun b => if b = "master".toList then some (List.replicate 40 'b') else none

/-- Tree page oracle for the C6 counterexample: only `main` matches. -/
def c6TreeProbe : Str → Option Str :=
  fun b => if b = "main".toList then some "abc1234".toList else none

/-- Claim C6, counterexample to the original claim.  With no match on
`main`'s commit page, a match on `main`'s tree page, and a match on
`master`'s commit page, the claimed per-branch order would resolve to
(`main`, tree match) — the spec-order reference definition does — but the
code's two-pass order resolves to (`master`, commit-page match). -/
theorem claim6_counterexample :
    guess_default_sha_html c6CommitsProbe c6TreeProbe none =
      .ok ("master".toList, List.replicate 40 'b') ∧
    guessShaSpecOrder c6CommitsProbe c6TreeProbe none =
      .ok ("main".toList, "abc1234".toList) ∧
    ("master".toList, List.replicate 40 'b') ≠ ("main".toList, "abc1234".toList) := by
  refine ⟨by rfl, by rfl, by decide⟩

/-- Claim C6, witness: the amended characterization applied at the concrete
oracles of the counterexample and at an all-failing oracle. -/
theorem claim6_html_resolution_order_witness :
    guess_default_sha_html c6CommitsProbe c6TreeProbe none =
      .ok ("master".toList, List.replicate 40 'b') ∧
    guess_default_sha_html (fun _ => none) (fun _ => none) none = .error () :=
  ⟨(claim6_html_resolution_order c6CommitsProbe c6TreeProbe none).2.1
      ("master".toList, List.replicate 40 'b') (by rfl),
   (claim6_html_resolution_order (fun _ => none) (fun _ => none) none).1.2
      (fun b _ => ⟨rfl, rfl⟩)⟩

/-! ## Locator lemmas for C7 -/

theorem urlPathParts_ok (url : Str) : ∀ p ∈ urlPathParts url, p ≠ [] ∧ '/' ∉ p := by
  intro p hp
  unfold urlPathParts at hp
  rw [List.mem_filter] at hp
  refine ⟨by simpa using hp.2, ?_⟩
  exact pySplit_no_sep '/' _ p hp.1

/-- Claim C7, amended.  For every accepted URL the returned owner is nonempty
and free of path separators, and the returned name is free of path
separators and equals the last nonempty path segment with a trailing `.git`
stripped; the name is empty exactly when that last segment is literally
`.git` (so the original "name is non-empty" clause fails, see
`claim7_counterexample`). -/
theorem claim7_locator_invariants (url owner name : Str)
    (h : owner_repo url = .ok (owner, name)) :
    owner ≠ [] ∧ '/' ∉ owner ∧ '/' ∉ name ∧
    ∃ last, (urlPathParts url).getLast? = some last ∧ name = stripDotGit last ∧
      (name = [] ↔ last = ".git".toList) := by
  unfold owner_repo at h
  split at h
  · split at h
    · simp at h
    · rename_i hlen
      simp only [Except.ok.injEq, Prod.mk.injEq] at h
      obtain ⟨ho, hn⟩ := h
      have hlen2 : 2 ≤ (urlPathParts url).length := Nat.le_of_not_lt hlen
      have hne : urlPathParts url ≠ [] := by
        intro hc
        rw [hc] at hlen2
        simp at hlen2
      have hmo : owner ∈ urlPathParts url := by
        rw [← ho]
        exact (urlPathParts url).get_mem _ _
      set last := (urlPathParts url).get
        ⟨(urlPathParts url).length - 1, by omega⟩ with hlast
      have hml : last ∈ urlPathParts url := (urlPathParts url).get_mem _ _
      obtain ⟨hone, hosl⟩ := urlPathParts_ok url owner hmo
      obtain ⟨hlne, hlsl⟩ := urlPathParts_ok url last hml
      refine ⟨hone, hosl, ?_, last, ?_, ?_, ?_⟩
      · rw [← hn]
        unfold stripDotGit
        split
        · intro hc
          exact hlsl (List.take_subset _ _ hc)
        · exact hlsl
      · rw [List.getLast?_eq_getLast_of_ne_nil hne, List.getLast_eq_getElem]
        rfl
      · exact hn.symm
      · constructor
        · intro hname0
          rw [← hn] at hname0
          unfold stripDotGit at hname0
          split at hname0
          · rename_i hsuf
            rw [List.isSuffixOf_iff_suffix] at hsuf
            have hge : 4 ≤ last.length := by
              have := hsuf.length_le
              simpa using this
            rcases List.take_eq_nil_iff.1 hname0 with h0 | h0
            · have hlen4 : last.length = 4 := by omega
              have := List.IsSuffix.eq_of_length hsuf (by simp [hlen4])
              exact this.symm
            · exact absurd h0 hlne
          · exact absurd hname0 hlne
        · intro hlast4
          rw [← hn, hlast4]
          decide
  · simp at h

/-- Claim C7, counterexample to the original claim.  The URL
`https://github.com/owner/.git` is accepted, yet the returned name is the
empty string: the last path segment is exactly `.git`, and stripping the
suffix leaves nothing. -/
theorem claim7_counterexample :
    owner_repo "https://github.com/owner/.git".toList = .ok ("owner".toList, []) := by
  rfl

/-- Claim C7, witness: the amended invariants at a concrete accepted URL. -/
theorem claim7_locator_invariants_witness :
    "DiamondGotCat".toList ≠ [] ∧ '/' ∉ "DiamondGotCat".toList ∧
    '/' ∉ "SpeedClone".toList ∧
    ∃ last, (urlPathParts "https://github.com/DiamondGotCat/SpeedClone.git".toList).getLast? =
        some last ∧
      "SpeedClone".toList = stripDotGit last ∧
      ("SpeedClone".toList = [] ↔ last = ".git".toList) :=
  claim7_locator_invariants "https://github.com/DiamondGotCat/SpeedClone.git".toList
    "DiamondGotCat".toList "SpeedClone".toList (by rfl)

/-! ## Skeleton lemmas for C8 -/

theorem noDD_append (a b : List Str) (ha : noDD a) (hb : noDD b) : noDD (a ++ b) := by
  intro c hc
  rcases List.mem_append.1 hc with h | h
  · exact ha c h
  · exact hb c h

theorem pySplit_no_sep_eq (sep : Char) :
    ∀ (s : Str), sep ∉ s → pySplit sep s = [s] := by
  intro s
  induction s with
  | nil => intro _; rfl
  | cons c rest ih =>
    intro h
    have hc : c ≠ sep := fun hcc => h (by simp [hcc])
    have hrest : sep ∉ rest := fun hm => h (by simp [hm])
    rw [pySplit, if_neg hc, ih hrest]

theorem mkRawPath_single (b : Str) (h1 : b ≠ []) (h2 : '/' ∉ b) (h3 : b ≠ ['.']) :
    mkRawPath b = ⟨false, [b]⟩ := by
  unfold mkRawPath
  congr 1
  · rcases b with _ | ⟨c, rest⟩
    · simp at h1
    · have : c ≠ '/' := fun hc => h2 (by simp [hc])
      simp [this]
  · rw [pySplit_no_sep_eq '/' b h2]
    simp [h1, h3]

theorem resolveLex_extend (cwd : List Str) (dst : RawPath) (suffix : List Str)
    (hdd : noDD cwd) (hdstDD : noDD dst.comps) (hsuf : noDD suffix) :
    resolveLex cwd ⟨dst.abs, dst.comps ++ suffix⟩ =
      (startOf cwd dst ++ dst.comps) ++ suffix := by
  rw [resolveLex_noDD _ _ hdd (noDD_append _ _ hdstDD hsuf)]
  simp [startOf, List.append_assoc]

theorem fsSeq_ok (r : FS × Option OsErr) (k : FS → FS × Option OsErr) (fsOut : FS)
    (h : fsSeq r k = (fsOut, none)) : ∃ fsm, r = (fsm, none) ∧ k fsm = (fsOut, none) := by
  rcases r with ⟨fsm, err⟩
  rcases err with _ | e
  · exact ⟨fsm, rfl, h⟩
  · simp [fsSeq] at h

theorem mkdirP_files_eq (cwd : List Str) (fs fs1 : FS) (p : RawPath) (exOk : Bool)
    (e : Option OsErr) (h : mkdirP cwd fs p exOk = (fs1, e)) : fs1.files = fs.files := by
  have h2 := (mkdirPath_mono cwd (p.comps.length + 1) fs p true exOk).2
  rw [show mkdirPath cwd fs p true exOk (p.comps.length + 1) = mkdirP cwd fs p exOk from rfl,
    h] at h2
  exact h2

theorem fileContent_cons_ne (d : List (List Str)) (q : List Str × Str)
    (rest : List (List Str × Str)) (p : List Str) (h : q.1 ≠ p) :
    FS.fileContent ⟨d, q :: rest⟩ p = FS.fileContent ⟨d, rest⟩ p := by
  unfold FS.fileContent
  rw [List.find?_cons_of_neg]
  simp [h]

theorem fileContent_cons_eq (d : List (List Str)) (q : List Str × Str)
    (rest : List (List Str × Str)) (p : List Str) (h : q.1 = p) :
    FS.fileContent ⟨d, q :: rest⟩ p = some q.2 := by
  unfold FS.fileContent
  rw [List.find?_cons_of_pos]
  · rfl
  · simp [h]

theorem ne_append_left {D x y : List Str} (h : x ≠ y) : D ++ x ≠ D ++ y :=
  fun hc => h (List.append_cancel_left hc)

/-- Claim C8.  After a successful skeleton write with resolved branch `b` and
commit id `sha`, the file `.git/HEAD` under the destination contains exactly
`ref: refs/heads/` followed by `b` and one newline, and each of
`.git/refs/heads/b`, `.git/refs/remotes/origin/b` and
`.git/refs/remotes/upstream/b` contains exactly `sha` followed by one
newline. -/
theorem claim8_git_skeleton (cwd : List Str) (fs fs' : FS) (dst : RawPath)
    (remoteUrl b sha : Str)
    (hdd : noDD cwd) (hdstDD : noDD dst.comps)
    (hb1 : b ≠ []) (hb2 : '/' ∉ b) (hb3 : b ≠ ['.']) (hb4 : b ≠ ['.', '.'])
    (hrun : write_git_skeleton cwd fs dst remoteUrl b sha = (fs', none)) :
    FS.fileContent fs'
        ((startOf cwd dst ++ dst.comps) ++ [".git".toList, "HEAD".toList]) =
      some ("ref: refs/heads/".toList ++ b ++ ['\n']) ∧
    FS.fileContent fs'
        ((startOf cwd dst ++ dst.comps) ++ [".git".toList, "refs".toList, "heads".toList, b]) =
      some (sha ++ ['\n']) ∧
    FS.fileContent fs'
        ((startOf cwd dst ++ dst.comps) ++
          [".git".toList, "refs".toList, "remotes".toList, "origin".toList, b]) =
      some (sha ++ ['\n']) ∧
    FS.fileContent fs'
        ((startOf cwd dst ++ dst.comps) ++
          [".git".toList, "refs".toList, "remotes".toList, "upstream".toList, b]) =
      some (sha ++ ['\n']) := by
  have hbP := mkRawPath_single b hb1 hb2 hb3
  have e5 : joinPath (joinPath dst (mkRawPath ".git".toList)) (mkRawPath "HEAD".toList) =
      ⟨dst.abs, dst.comps ++ [".git".toList, "HEAD".toList]⟩ := by
    simp [joinPath, mkRawPath, pySplit]
  have e6 : joinPath (joinPath (joinPath dst (mkRawPath ".git".toList))
        (mkRawPath "refs/heads".toList)) (mkRawPath b) =
      ⟨dst.abs, dst.comps ++ [".git".toList, "refs".toList, "heads".toList, b]⟩ := by
    rw [hbP]
    simp [joinPath, mkRawPath, pySplit]
  have e7 : joinPath (joinPath (joinPath dst (mkRawPath ".git".toList))
        (mkRawPath "refs/remotes/origin".toList)) (mkRawPath b) =
      ⟨dst.abs, dst.comps ++
        [".git".toList, "refs".toList, "remotes".toList, "origin".toList, b]⟩ := by
    rw [hbP]
    simp [joinPath, mkRawPath, pySplit]
  have e8 : joinPath (joinPath (joinPath dst (mkRawPath ".git".toList))
        (mkRawPath "refs/remotes/upstream".toList)) (mkRawPath b) =
      ⟨dst.abs, dst.comps ++
        [".git".toList, "refs".toList, "remotes".toList, "upstream".toList, b]⟩ := by
    rw [hbP]
    simp [joinPath, mkRawPath, pySplit]
  have e9 : joinPath (joinPath dst (mkRawPath ".git".toList)) (mkRawPath "config".toList) =
      ⟨dst.abs, dst.comps ++ [".git".toList, "config".toList]⟩ := by
    simp [joinPath, mkRawPath, pySplit]
  have e10 : joinPath (joinPath dst (mkRawPath ".git".toList))
        (mkRawPath "objects/info/promisor".toList) =
      ⟨dst.abs, dst.comps ++
        [".git".toList, "objects".toList, "info".toList, "promisor".toList]⟩ := by
    simp [joinPath, mkRawPath, pySplit]
  unfold write_git_skeleton at hrun
  obtain ⟨fs1, h1, hrun⟩ := fsSeq_ok _ _ _ hrun
  obtain ⟨fs2, h2, hrun⟩ := fsSeq_ok _ _ _ hrun
  obtain ⟨fs3, h3, hrun⟩ := fsSeq_ok _ _ _ hrun
  obtain ⟨fs4, h4, hrun⟩ := fsSeq_ok _ _ _ hrun
  obtain ⟨fs5, h5, hrun⟩ := fsSeq_ok _ _ _ hrun
  obtain ⟨fs6, h6, hrun⟩ := fsSeq_ok _ _ _ hrun
  obtain ⟨fs7, h7, hrun⟩ := fsSeq_ok _ _ _ hrun
  obtain ⟨fs8, h8, hrun⟩ := fsSeq_ok _ _ _ hrun
  obtain ⟨fs9, h9, hrun⟩ := fsSeq_ok _ _ _ hrun
  have f4 : fs4.files = fs.files := by
    rw [mkdirP_files_eq _ _ _ _ _ _ h4, mkdirP_files_eq _ _ _ _ _ _ h3,
      mkdirP_files_eq _ _ _ _ _ _ h2, mkdirP_files_eq _ _ _ _ _ _ h1]
  rw [e5] at h5
  rw [e6] at h6
  rw [e7] at h7
  rw [e8] at h8
  rw [e9] at h9
  rw [e10] at hrun
  have w5 := openWrite_ok cwd fs4 fs5 _ _ hdd h5
  rw [resolveLex_extend cwd dst _ hdd hdstDD (by decide)] at w5
  have w6 := openWrite_ok cwd fs5 fs6 _ _ hdd h6
  rw [resolveLex_extend cwd dst _ hdd hdstDD (by
    intro c hc
    simp only [List.mem_cons, List.mem_singleton] at hc
    rcases hc with h | h | h | h
    · subst h; decide
    · subst h; decide
    · subst h; decide
    · simp at h; subst h; exact hb4)] at w6
  have w7 := openWrite_ok cwd fs6 fs7 _ _ hdd h7
  rw [resolveLex_extend cwd dst _ hdd hdstDD (by
    intro c hc
    simp only [List.mem_cons, List.mem_singleton] at hc
    rcases hc with h | h | h | h | h
    · subst h; decide
    · subst h; decide
    · subst h; decide
    · subst h; decide
    · simp at h; subst h; exact hb4)] at w7
  have w8 := openWrite_ok cwd fs7 fs8 _ _ hdd h8
  rw [resolveLex_extend cwd dst _ hdd hdstDD (by
    intro c hc
    simp only [List.mem_cons, List.mem_singleton] at hc
    rcases hc with h | h | h | h | h
    · subst h; decide
    · subst h; decide
    · subst h; decide
    · subst h; decide
    · simp at h; subst h; exact hb4)] at w8
  have w9 := openWrite_ok cwd fs8 fs9 _ _ hdd h9
  rw [resolveLex_extend cwd dst _ hdd hdstDD (by decide)] at w9
  have w10 := openWrite_ok cwd fs9 fs' _ _ hdd hrun
  rw [resolveLex_extend cwd dst _ hdd hdstDD (by decide)] at w10
  have hfiles : fs'.files =
      ((startOf cwd dst ++ dst.comps) ++
        [".git".toList, "objects".toList, "info".toList, "promisor".toList],
       "promisor\n".toList) ::
      ((startOf cwd dst ++ dst.comps) ++ [".git".toList, "config".toList],
       gitConfigText remoteUrl b) ::
      ((startOf cwd dst ++ dst.comps) ++
        [".git".toList, "refs".toList, "remotes".toList, "upstream".toList, b],
       sha ++ ['\n']) ::
      ((startOf cwd dst ++ dst.comps) ++
        [".git".toList, "refs".toList, "remotes".toList, "origin".toList, b],
       sha ++ ['\n']) ::
      ((startOf cwd dst ++ dst.comps) ++
        [".git".toList, "refs".toList, "heads".toList, b],
       sha ++ ['\n']) ::
      ((startOf cwd dst ++ dst.comps) ++ [".git".toList, "HEAD".toList],
       "ref: refs/heads/".toList ++ b ++ ['\n']) ::
      fs.files := by
    simp only [w10, w9, w8, w7, w6, w5]
    rw [f4]
  unfold FS.fileContent
  rw [hfiles]
  refine ⟨?_, ?_, ?_, ?_⟩
  · rw [List.find?_cons_of_neg _ (by simp only [decide_eq_true_eq]; exact ne_append_left (by decide)),
      List.find?_cons_of_neg _ (by simp only [decide_eq_true_eq]; exact ne_append_left (by decide)),
      List.find?_cons_of_neg _ (by simp only [decide_eq_true_eq]; exact ne_append_left (by
        intro h; have := congrArg List.length h; simp at this)),
      List.find?_cons_of_neg _ (by simp only [decide_eq_true_eq]; exact ne_append_left (by
        intro h; have := congrArg List.length h; simp at this)),
      List.find?_cons_of_neg _ (by simp only [decide_eq_true_eq]; exact ne_append_left (by
        intro h; have := congrArg List.length h; simp at this)),
      List.find?_cons_of_pos _ (by simp)]
    rfl
  · rw [List.find?_cons_of_neg _ (by simp only [decide_eq_true_eq]; exact ne_append_left (by
        intro h; simp at h)),
      List.find?_cons_of_neg _ (by simp only [decide_eq_true_eq]; exact ne_append_left (by
        intro h; simp at h)),
      List.find?_cons_of_neg _ (by simp only [decide_eq_true_eq]; exact ne_append_left (by
        intro h; simp at h)),
      List.find?_cons_of_neg _ (by simp only [decide_eq_true_eq]; exact ne_append_left (by
        intro h; simp at h)),
      List.find?_cons_of_pos _ (by simp)]
    rfl
  · rw [List.find?_cons_of_neg _ (by simp only [decide_eq_true_eq]; exact ne_append_left (by
        intro h; simp at h)),
      List.find?_cons_of_neg _ (by simp only [decide_eq_true_eq]; exact ne_append_left (by
        intro h; simp at h)),
      List.find?_cons_of_neg _ (by simp only [decide_eq_true_eq]; exact ne_append_left (by
        intro h; simp at h)),
      List.find?_cons_of_pos _ (by simp)]
    rfl
  · rw [List.find?_cons_of_neg _ (by simp only [decide_eq_true_eq]; exact ne_append_left (by
        intro h; simp at h)),
      List.find?_cons_of_neg _ (by simp only [decide_eq_true_eq]; exact ne_append_left (by
        intro h; simp at h)),
      List.find?_cons_of_pos _ (by simp)]
    rfl

/-- Claim C8, witness: a concrete successful skeleton write for branch `main`
with a 40-hex commit id under destination `/w`. -/
theorem claim8_git_skeleton_witness :
    FS.fileContent (write_git_skeleton [] ⟨[["w".toList]], []⟩ ⟨true, ["w".toList]⟩
        "https://github.com/a/w".toList "main".toList (List.replicate 40 'd')).1
        (["w".toList] ++ [".git".toList, "HEAD".toList]) =
      some ("ref: refs/heads/".toList ++ "main".toList ++ ['\n']) ∧
    FS.fileContent (write_git_skeleton [] ⟨[["w".toList]], []⟩ ⟨true, ["w".toList]⟩
        "https://github.com/a/w".toList "main".toList (List.replicate 40 'd')).1
        (["w".toList] ++ [".git".toList, "refs".toList, "heads".toList, "main".toList]) =
      some (List.replicate 40 'd' ++ ['\n']) ∧
    FS.fileContent (write_git_skeleton [] ⟨[["w".toList]], []⟩ ⟨true, ["w".toList]⟩
        "https://github.com/a/w".toList "main".toList (List.replicate 40 'd')).1
        (["w".toList] ++
          [".git".toList, "refs".toList, "remotes".toList, "origin".toList, "main".toList]) =
      some (List.replicate 40 'd' ++ ['\n']) ∧
    FS.fileContent (write_git_skeleton [] ⟨[["w".toList]], []⟩ ⟨true, ["w".toList]⟩
        "https://github.com/a/w".toList "main".toList (List.replicate 40 'd')).1
        (["w".toList] ++
          [".git".toList, "refs".toList, "remotes".toList, "upstream".toList, "main".toList]) =
      some (List.replicate 40 'd' ++ ['\n']) :=
  claim8_git_skeleton [] ⟨[["w".toList]], []⟩
    (write_git_skeleton [] ⟨[["w".toList]], []⟩ ⟨true, ["w".toList]⟩
      "https://github.com/a/w".toList "main".toList (List.replicate 40 'd')).1
    ⟨true, ["w".toList]⟩ "https://github.com/a/w".toList "main".toList (List.replicate 40 'd')
    (by decide) (by decide) (by decide) (by decide) (by decide) (by decide) (by rfl)

/-- Claim C9.  Invoked against an existing destination without `--force`, the
tool stops with exit status 1 and the filesystem state unchanged byte for
byte; a successful run exits 0 and a run-time failure in `bootstrap` exits 2,
so the pre-existing-directory outcome is distinguishable from both. -/
theorem claim9_existing_destination (boot : FS → FS × Except Str Unit) (cwd : List Str)
    (fs : FS) (target : RawPath) (hex : pathExists cwd fs target = true) :
    mainRun boot cwd fs target false = (fs, 1) ∧
    (∀ (boot2 : FS → FS × Except Str Unit) (fs2 : FS) (t2 : RawPath) (fs3 fs4 : FS),
       pathExists cwd fs2 t2 = false →
       mkdirP cwd fs2 t2 true = (fs3, none) →
       boot2 fs3 = (fs4, .ok ()) →
       mainRun boot2 cwd fs2 t2 false = (fs4, 0)) ∧
    (∀ (boot2 : FS → FS × Except Str Unit) (fs2 : FS) (t2 : RawPath) (fs3 fs4 : FS) (e : Str),
       pathExists cwd fs2 t2 = false →
       mkdirP cwd fs2 t2 true = (fs3, none) →
       boot2 fs3 = (fs4, .error e) →
       mainRun boot2 cwd fs2 t2 false = (fs4, 2)) ∧
    ((1 : Nat) ≠ 0 ∧ (1 : Nat) ≠ 2) := by
  refine ⟨?_, ?_, ?_, by decide, by decide⟩
  · unfold mainRun
    rw [hex]
    rfl
  · intro boot2 fs2 t2 fs3 fs4 hpe hmk hboot
    unfold mainRun mainGo
    rw [hpe]
    simp only [Bool.false_eq_true, if_false]
    rw [hmk]
    show bootExit (boot2 fs3) = (fs4, 0)
    rw [hboot]
    rfl
  · intro boot2 fs2 t2 fs3 fs4 e hpe hmk hboot
    unfold mainRun mainGo
    rw [hpe]
    simp only [Bool.false_eq_true, if_false]
    rw [hmk]
    show bootExit (boot2 fs3) = (fs4, 2)
    rw [hboot]
    rfl

/-- Claim C9, witness: concrete runs showing statuses 1, 0 and 2. -/
theorem claim9_existing_destination_witness :
    mainRun (fun fs => (fs, .ok ())) [] ⟨[["w".toList]], []⟩ ⟨true, ["w".toList]⟩ false =
      (⟨[["w".toList]], []⟩, 1) ∧
    mainRun (fun fs => (fs, .ok ())) [] ⟨[], []⟩ ⟨true, ["w".toList]⟩ false =
      (⟨[["w".toList]], []⟩, 0) ∧
    mainRun (fun fs => (fs, .error "x".toList)) [] ⟨[], []⟩ ⟨true, ["w".toList]⟩ false =
      (⟨[["w".toList]], []⟩, 2) := by
  have h := claim9_existing_destination (fun fs => (fs, .ok ())) []
    ⟨[["w".toList]], []⟩ ⟨true, ["w".toList]⟩ (by decide)
  exact ⟨h.1,
    h.2.1 (fun fs => (fs, .ok ())) ⟨[], []⟩ ⟨true, ["w".toList]⟩
      ⟨[["w".toList]], []⟩ ⟨[["w".toList]], []⟩ (by decide) (by decide) rfl,
    h.2.2.1 (fun fs => (fs, .error "x".toList)) ⟨[], []⟩ ⟨true, ["w".toList]⟩
      ⟨[["w".toList]], []⟩ ⟨[["w".toList]], []⟩ "x".toList (by decide) (by decide) rfl⟩

/-! ## Claim C4: archive prefix determination and stripping -/

theorem strLe_refl (s : Str) : strLe s s = true := by simp [strLe]

theorem strLe_cons_same (x : Char) (xs ys : Str) :
    strLe (x :: xs) (x :: ys) = strLe xs ys := by
  simp [strLe, strLt, lt_irrefl]

theorem strLt_trans (a : Str) : ∀ (b c : Str),
    strLt a b = true → strLt b c = true → strLt a c = true := by
  induction a with
  | nil =>
    intro b c hab hbc
    cases b with
    | nil => exact hbc
    | cons y ys =>
      cases c with
      | nil => simp [strLt] at hbc
      | cons z zs => simp [strLt]
  | cons x xs ih =>
    intro b c hab hbc
    cases b with
    | nil => simp [strLt] at hab
    | cons y ys =>
      cases c with
      | nil => simp [strLt] at hbc
      | cons z zs =>
        simp only [strLt] at hab hbc ⊢
        by_cases hxy : x < y
        · by_cases hyz : y < z
          · rw [if_pos (lt_trans hxy hyz)]
          · rw [if_neg hyz] at hbc
            by_cases hyz2 : y = z
            · subst hyz2
              rw [if_pos hxy]
            · rw [if_neg hyz2] at hbc
              exact absurd hbc (by simp)
        · rw [if_neg hxy] at hab
          by_cases hxy2 : x = y
          · subst hxy2
            rw [if_pos rfl] at hab
            by_cases hxz : x < z
            · rw [if_pos hxz]
            · rw [if_neg hxz]
              rw [if_neg hxz] at hbc
              by_cases hxz2 : x = z
              · rw [if_pos hxz2] at hbc ⊢
                exact ih ys zs hab hbc
              · rw [if_neg hxz2] at hbc
                exact absurd hbc (by simp)
          · rw [if_neg hxy2] at hab
            exact absurd hab (by simp)

theorem strLe_trans (a b c : Str) (hab : strLe a b = true) (hbc : strLe b c = true) :
    strLe a c = true := by
  simp only [strLe, Bool.or_eq_true, decide_eq_true_eq] at hab hbc ⊢
  rcases hab with hab | rfl
  · rcases hbc with hbc | rfl
    · exact Or.inl (strLt_trans a b c hab hbc)
    · exact Or.inl hab
  · exact hbc

theorem strLe_total (a : Str) : ∀ b, strLe a b = true ∨ strLe b a = true := by
  induction a with
  | nil =>
    intro b
    cases b with
    | nil => left; exact strLe_refl []
    | cons y ys => left; simp [strLe, strLt]
  | cons x xs ih =>
    intro b
    cases b with
    | nil => right; simp [strLe, strLt]
    | cons y ys =>
      rcases lt_trichotomy x y with h | h | h
      · left; simp [strLe, strLt, h]
      · subst h
        rcases ih ys with h2 | h2
        · left; rw [strLe_cons_same]; exact h2
        · right; rw [strLe_cons_same]; exact h2
      · right; simp [strLe, strLt, h]

theorem mem_insertSorted (s a : Str) (l : List Str) :
    a ∈ insertSorted s l ↔ a = s ∨ a ∈ l := by
  induction l with
  | nil => simp [insertSorted]
  | cons t rest ih =>
    simp only [insertSorted]
    split
    · simp [List.mem_cons]
    · simp [List.mem_cons, ih]
      tauto

theorem mem_sortStrs (a : Str) (l : List Str) : a ∈ sortStrs l ↔ a ∈ l := by
  induction l with
  | nil => simp [sortStrs]
  | cons s rest ih => simp [sortStrs, mem_insertSorted, ih]

theorem insertSorted_headD_le (s : Str) (m : List Str)
    (hm : ∀ r ∈ m, strLe (m.headD []) r = true) :
    ∀ r ∈ insertSorted s m, strLe ((insertSorted s m).headD []) r = true := by
  cases m with
  | nil =>
    intro r hr
    simp [insertSorted] at hr
    subst hr
    exact strLe_refl r
  | cons t ts =>
    intro r hr
    unfold insertSorted at hr ⊢
    by_cases hst : strLe s t = true
    · rw [if_pos hst] at hr ⊢
      simp only [List.headD_cons]
      rcases List.mem_cons.1 hr with rfl | hr2
      · exact strLe_refl r
      · exact strLe_trans s t r hst (hm r hr2)
    · rw [if_neg hst] at hr ⊢
      simp only [List.headD_cons]
      rcases List.mem_cons.1 hr with rfl | hr2
      · exact strLe_refl r
      · rcases (mem_insertSorted s r ts).1 hr2 with rfl | hr3
        · rcases strLe_total r t with h | h
          · exact absurd h hst
          · exact h
        · exact hm r (List.mem_cons_of_mem t hr3)

theorem sortStrs_headD_le (l : List Str) :
    ∀ r ∈ sortStrs l, strLe ((sortStrs l).headD []) r = true := by
  induction l with
  | nil => intro r hr; simp [sortStrs] at hr
  | cons s rest ih =>
    intro r hr
    unfold sortStrs at hr ⊢
    exact insertSorted_headD_le s (sortStrs rest) ih r hr

theorem tarTopDir_eq_find (es : List TarEntry) :
    tarTopDir es = (es.find? TarEntry.isdir).map (fun m => rstripSlash m.name ++ ['/']) := by
  induction es with
  | nil => rfl
  | cons m rest ih =>
    by_cases h : m.isdir = true
    · simp [tarTopDir, List.find?_cons_of_pos _ h, h]
    · rw [tarTopDir, if_neg (by simp [h]), List.find?_cons_of_neg rest h]
      exact ih

theorem tarStep_no_malformed (cwd : List Str) (dst : RawPath) (pre : Str) (fs : FS)
    (m : TarEntry) : (tarStep cwd dst pre fs m).2 ≠ some ExtractErr.malformed := by
  unfold tarStep
  repeat' split
  all_goals simp

theorem tarFold_no_malformed (cwd : List Str) (dst : RawPath) (pre : Str) :
    ∀ (fs : FS) (es : List TarEntry),
      (tarFold cwd dst pre fs es).2 ≠ some ExtractErr.malformed := by
  intro fs es
  induction es generalizing fs with
  | nil => simp [tarFold]
  | cons m rest ih =>
    unfold tarFold
    split
    · rename_i fs1 heq
      exact ih fs1
    · rename_i fs1 e heq
      intro hc
      apply tarStep_no_malformed cwd dst pre fs m
      rw [heq]
      simpa using hc

theorem extract_tar_malformed_iff (cwd : List Str) (es : List TarEntry) (dst : RawPath)
    (fs : FS) :
    ((extract_tar_to cwd es dst fs).2 = some ExtractErr.malformed ↔ tarTopDir es = none) ∧
    (tarTopDir es = none → extract_tar_to cwd es dst fs = (fs, some ExtractErr.malformed)) := by
  unfold extract_tar_to
  cases h : tarTopDir es with
  | none => simp
  | some pre =>
    constructor
    · constructor
      · intro hc
        exact absurd hc (tarFold_no_malformed cwd dst pre fs es)
      · intro hc
        cases hc
    · intro hc
      cases hc

theorem tarRel_eq (pre : Str) (m : TarEntry) (rel : Str) (h : tarRel pre m = some rel) :
    m.name = pre ++ rel ∧ rel ≠ [] := by
  simp only [tarRel] at h
  split at h
  · rename_i hp
    split at h
    · cases h
    · rename_i hne
      obtain ⟨t, ht⟩ := List.isPrefixOf_iff_prefix.1 hp
      have hdrop : m.name.drop pre.length = t := by rw [← ht, List.drop_left]
      have hrel : rel = m.name.drop pre.length := (Option.some.inj h).symm
      constructor
      · rw [hrel, hdrop, ← ht]
      · rw [hrel]; exact hne
  · cases h

theorem zipRel_nil (name : Str) (h : name ≠ []) : zipRel [] name = some name := by
  simp [zipRel, h]

theorem zipRel_eq (pre name rel : Str) (h : zipRel pre name = some rel) :
    name = pre ++ rel ∧ rel ≠ [] := by
  simp only [zipRel] at h
  split at h
  · cases h
  · rename_i hcond
    have hpre : pre <+: name := by
      by_cases hp : pre = []
      · subst hp; exact List.nil_prefix
      · by_cases hq : pre.isPrefixOf name = true
        · exact List.isPrefixOf_iff_prefix.1 hq
        · exfalso
          apply hcond
          have hq2 : pre.isPrefixOf name = false := Bool.eq_false_iff.2 hq
          simp [hp, hq2]
    split at h
    · cases h
    · rename_i hne
      obtain ⟨t, ht⟩ := hpre
      have hdrop : name.drop pre.length = t := by rw [← ht, List.drop_left]
      have hrel : rel = name.drop pre.length := (Option.some.inj h).symm
      constructor
      · rw [hrel, hdrop, ← ht]
      · rw [hrel]; exact hne

theorem mem_zipRoots (zs : List ZipEntry) (r : Str) :
    r ∈ zipRoots zs ↔
      ∃ e ∈ zs, '/' ∈ e.name ∧ r = e.name.takeWhile (fun c => c != '/') ++ ['/'] := by
  unfold zipRoots
  rw [mem_sortStrs, List.mem_dedup, List.mem_filterMap]
  constructor
  · rintro ⟨e, he, hf⟩
    by_cases h : '/' ∈ e.name
    · rw [if_pos h] at hf
      exact ⟨e, he, h, (Option.some.inj hf).symm⟩
    · rw [if_neg h] at hf
      cases hf
  · rintro ⟨e, he, h, rfl⟩
    exact ⟨e, he, by rw [if_pos h]⟩

theorem zipTopDir_empty_iff (zs : List ZipEntry) :
    zipTopDir zs = [] ↔ ∀ e ∈ zs, '/' ∉ e.name := by
  constructor
  · intro h e he hmem
    have hr : (e.name.takeWhile (fun c => c != '/') ++ ['/']) ∈ zipRoots zs :=
      (mem_zipRoots zs _).2 ⟨e, he, hmem, rfl⟩
    cases hroots : zipRoots zs with
    | nil =>
      rw [hroots] at hr
      exact absurd hr (List.not_mem_nil _)
    | cons a rest =>
      have hhead : zipTopDir zs = a := by unfold zipTopDir; rw [hroots]; rfl
      have ha : a ∈ zipRoots zs := by rw [hroots]; exact List.mem_cons_self a rest
      obtain ⟨e2, _, _, ha2⟩ := (mem_zipRoots zs a).1 ha
      have ha0 : a = [] := hhead.symm.trans h
      rw [ha0] at ha2
      simp at ha2
  · intro h
    unfold zipTopDir zipRoots
    have hnil : (zs.filterMap (fun e =>
        if '/' ∈ e.name then some (e.name.takeWhile (fun c => c != '/') ++ ['/'])
        else none)) = [] := by
      rw [List.filterMap_eq_nil_iff]
      intro e he
      rw [if_neg (h e he)]
    rw [hnil]
    rfl

theorem zipTopDir_min (zs : List ZipEntry) : ∀ r ∈ zipRoots zs,
    strLe (zipTopDir zs) r = true := by
  intro r hr
  unfold zipTopDir
  exact sortStrs_headD_le _ r hr

def c4zip : List ZipEntry :=
  [⟨"a/x".toList, 0, "1".toList⟩, ⟨"b/y".toList, 0, "2".toList⟩]

/-- Claim C4, amended.  Tar: the common prefix is the first directory entry's
name (rstrip-slash plus `/`), `MalformedArchive` is raised exactly when no
directory entry exists, and every processed member's name is the prefix
followed by its nonempty remainder.  Zip: the prefix is empty exactly when no
entry name contains `/`; otherwise it is the lexicographically least of the
`seg/` roots taken over the entries that do contain a separator (not over all
entries, and entries outside that root are skipped rather than emitted
unchanged); with an empty prefix names pass through unchanged, and every
processed name is the prefix followed by its nonempty remainder. -/
theorem claim4_prefix_and_stripping :
    (∀ es : List TarEntry,
       tarTopDir es = (es.find? TarEntry.isdir).map (fun m => rstripSlash m.name ++ ['/'])) ∧
    (∀ (cwd : List Str) (es : List TarEntry) (dst : RawPath) (fs : FS),
       ((extract_tar_to cwd es dst fs).2 = some ExtractErr.malformed ↔ tarTopDir es = none) ∧
       (tarTopDir es = none → extract_tar_to cwd es dst fs = (fs, some ExtractErr.malformed))) ∧
    (∀ (p : Str) (m : TarEntry) (rel : Str),
       tarRel p m = some rel → m.name = p ++ rel ∧ rel ≠ []) ∧
    (∀ zs : List ZipEntry,
       (zipTopDir zs = [] ↔ ∀ e ∈ zs, '/' ∉ e.name) ∧
       (∀ r, r ∈ zipRoots zs ↔
          ∃ e ∈ zs, '/' ∈ e.name ∧ r = e.name.takeWhile (fun c => c != '/') ++ ['/']) ∧
       (∀ r ∈ zipRoots zs, strLe (zipTopDir zs) r = true)) ∧
    (∀ name : Str, name ≠ [] → zipRel [] name = some name) ∧
    (∀ (p name rel : Str), zipRel p name = some rel → name = p ++ rel ∧ rel ≠ []) := by
  refine ⟨tarTopDir_eq_find, ?_, tarRel_eq, ?_, zipRel_nil, zipRel_eq⟩
  · intro cwd es dst fs
    exact extract_tar_malformed_iff cwd es dst fs
  · intro zs
    exact ⟨zipTopDir_empty_iff zs, mem_zipRoots zs, zipTopDir_min zs⟩

/-- Claim C4, counterexample.  The zip entries `a/x` and `b/y` share no common
top-level segment, yet the prefix is `a/` (not empty): extraction into `/d`
writes only `/d/x`, whereas the claimed paths-unchanged behaviour would have
produced `/d/a/x` and `/d/b/y`. -/
theorem claim4_counterexample :
    zipTopDir c4zip = "a/".toList ∧
    extract_zip_to [] c4zip ⟨true, ["d".toList]⟩ ⟨[["d".toList]], []⟩ =
      (⟨[["d".toList]], [(["d".toList, "x".toList], "1".toList)]⟩, none) ∧
    FS.fileContent (extract_zip_to [] c4zip ⟨true, ["d".toList]⟩ ⟨[["d".toList]], []⟩).1
      ["d".toList, "b".toList, "y".toList] = none ∧
    FS.fileContent (extract_zip_to [] c4zip ⟨true, ["d".toList]⟩ ⟨[["d".toList]], []⟩).1
      ["d".toList, "a".toList, "x".toList] = none := by
  exact ⟨by decide, by decide, by decide, by decide⟩

/-- Claim C4, witness: the tar remainder decomposition at the concrete member
`p/a` under the prefix `p/`. -/
theorem claim4_prefix_and_stripping_witness :
    "p/a".toList = "p/".toList ++ "a".toList ∧ ("a".toList : Str) ≠ [] := by
  exact claim4_prefix_and_stripping.2.2.1 "p/".toList
    ⟨"p/a".toList, TarType.file, 0, none⟩ "a".toList (by decide)
